import Mathlib

/-!
# Verification of the KiCad footprint scaler's geometry rewriter

A shallow embedding of `kicad_footprint_scaler.py`.  Documents are
`List Char`; numeric values are `ℚ` (the script's float arithmetic is
exact multiplication followed by fixed-precision decimal formatting,
and every property below is about that exact arithmetic).  Python's
`float(...)` on the numeric-shaped substrings captured by the regular
expressions is embedded as a partial function returning `Option ℚ`,
so a `ValueError` raised inside a `re.sub` callback surfaces as `none`.

The three regular expressions of `scale_footprint` are embedded as
deterministic matchers: each is a concatenation of literals, greedy
character classes (`\s+`, `[-\d.]+`, `[\d.]+`, `\s*`) and one lazy gap
(`(.*?)` in the polygon pattern).  Because every character class in
these patterns is disjoint from the token that follows it, greedy
matching with backtracking coincides with maximal munch, which is what
the matchers implement; the lazy gap is implemented as the search for
the shortest prefix whose continuation matches the tail
(`\s*\)\s*\(stroke`), and the `\s*\n` inside the polygon header as the
maximal whitespace run truncated after its last newline — exactly the
set of strings the backtracking engine accepts.  `re.sub`'s scan loop
(try a match at each position, left to right, resuming after each
match) is the function `subF`, written with explicit fuel so that it
is structurally recursive and kernel-computable.
-/

namespace KFS

/-- The characters of a string literal. -/
def chars (s : String) : List Char := s.data

/-- Python's `\s` class restricted to ASCII: space, tab, newline,
carriage return, form feed, vertical tab. -/
def isPySpace (c : Char) : Bool :=
  c = ' ' || c = '\t' || c = '\n' || c = '\r' || c = '\x0b' || c = '\x0c'

/-- The character class `[-\d.]` of the coordinate pattern. -/
def isNumChar (c : Char) : Bool :=
  c = '-' || c.isDigit || c = '.'

/-- The character class `[\d.]` of the size and thickness patterns. -/
def isSizeChar (c : Char) : Bool :=
  c.isDigit || c = '.'

/-- Numeric value of a digit character. -/
def charVal (c : Char) : ℕ := c.toNat - 48

/-- The digit character for a value below ten. -/
def digitChar : ℕ → Char
  | 0 => '0' | 1 => '1' | 2 => '2' | 3 => '3' | 4 => '4'
  | 5 => '5' | 6 => '6' | 7 => '7' | 8 => '8' | 9 => '9'
  | _ => '*'

/-- Value of a big-endian digit-character run. -/
def digitsVal (s : List Char) : ℕ :=
  s.foldl (fun a c => 10 * a + charVal c) 0

/-- Little-endian base-10 digits of a natural number, with fuel. -/
def digitsRecF : ℕ → ℕ → List ℕ
  | 0, _ => []
  | _ + 1, 0 => []
  | fuel + 1, n + 1 => ((n + 1) % 10) :: digitsRecF fuel ((n + 1) / 10)

/-- Little-endian base-10 digits of a natural number (`[]` for `0`). -/
def natDigits (n : ℕ) : List ℕ := digitsRecF n n

/-- Value of a little-endian digit list. -/
def valLE : List ℕ → ℕ
  | [] => 0
  | d :: t => d + 10 * valLE t

/-- Decimal rendering of a natural number. -/
def natChars (n : ℕ) : List Char :=
  if n = 0 then ['0'] else (natDigits n).reverse.map digitChar

/-- The exactly-`k`-character fractional part for a value `n < 10^k`:
the decimal rendering of `n` left-padded with zeros. -/
def fracChars (k : ℕ) (n : ℕ) : List Char :=
  List.replicate (k - (natDigits n).length) '0' ++ (natDigits n).reverse.map digitChar

/-- Round a rational to the nearest integer, ties to even — the
rounding of Python's fixed-precision `format`. -/
def rhe (q : ℚ) : ℤ :=
  if q - ⌊q⌋ < 1 / 2 then ⌊q⌋
  else if (1 : ℚ) / 2 < q - ⌊q⌋ then ⌊q⌋ + 1
  else if ⌊q⌋ % 2 = 0 then ⌊q⌋ else ⌊q⌋ + 1

/-- Python's `f"{q:.kf}"`: sign, integer part, dot, exactly `k`
fractional digits, rounding to `k` decimal places. -/
def fmtFixed (k : ℕ) (q : ℚ) : List Char :=
  (if rhe (q * 10 ^ k) < 0 then ['-'] else []) ++
    natChars ((rhe (q * 10 ^ k)).natAbs / 10 ^ k) ++
      '.' :: fracChars k ((rhe (q * 10 ^ k)).natAbs % 10 ^ k)

/-- The value a `k`-decimal-place rendering denotes: `q` rounded to
`k` decimal places. -/
def roundTo (k : ℕ) (q : ℚ) : ℚ := (rhe (q * 10 ^ k) : ℚ) / 10 ^ k

/-- Python `float(...)` on an unsigned run over the characters the
regex classes admit: digits with at most one dot and at least one
digit.  `none` is a `ValueError`. -/
def pyFloatCore (s : List Char) : Option ℚ :=
  match s.dropWhile Char.isDigit with
  | [] =>
    if (s.takeWhile Char.isDigit).isEmpty then none
    else some (digitsVal (s.takeWhile Char.isDigit))
  | c :: fr =>
    if c = '.' then
      if fr.all Char.isDigit then
        if (s.takeWhile Char.isDigit).isEmpty && fr.isEmpty then none
        else some ((digitsVal (s.takeWhile Char.isDigit) : ℚ) +
          (digitsVal fr : ℚ) / (10 : ℚ) ^ fr.length)
      else none
    else none

/-- Python `float(...)` on a captured regex group: an optional sign
then an unsigned run.  The call sites inside the rewriter only ever
receive strings drawn from the classes `[-\d.]` and `[\d.]`, on which
this parser agrees with `float`; raw prompt input (which can also be
`nan`, `inf`, exponent forms, …) is parsed by `floatInput` below. -/
def pyFloat (s : List Char) : Option ℚ :=
  match s with
  | [] => pyFloatCore []
  | c :: r =>
    if c = '-' then (pyFloatCore r).map (fun q => -q)
    else if c = '+' then pyFloatCore r
    else pyFloatCore (c :: r)

/-- Match a literal, returning the remainder. -/
def lit : List Char → List Char → Option (List Char)
  | [], s => some s
  | _ :: _, [] => none
  | p :: ps, c :: cs => if c = p then lit ps cs else none

/-- One attempt of the coordinate pattern
`\(xy\s+([-\d.]+)\s+([-\d.]+)\)` at the head of `s`: on success the
two captured groups and the text after the closing parenthesis. -/
def xyMatchAt (s : List Char) : Option (List Char × List Char × List Char) :=
  match lit (chars "(xy") s with
  | none => none
  | some r0 =>
    let ws1 := r0.takeWhile isPySpace
    let r1 := r0.dropWhile isPySpace
    if ws1.isEmpty then none else
    let g1 := r1.takeWhile isNumChar
    let r2 := r1.dropWhile isNumChar
    if g1.isEmpty then none else
    let ws2 := r2.takeWhile isPySpace
    let r3 := r2.dropWhile isPySpace
    if ws2.isEmpty then none else
    let g2 := r3.takeWhile isNumChar
    let r4 := r3.dropWhile isNumChar
    if g2.isEmpty then none else
    match r4 with
    | [] => none
    | c :: rem => if c = ')' then some (g1, g2, rem) else none

/-- `re.finditer` of the coordinate pattern, with fuel: scan left to
right, resume after each match. -/
def findXYF : ℕ → List Char → List (List Char × List Char)
  | 0, _ => []
  | _ + 1, [] => []
  | fuel + 1, c :: cs =>
    match xyMatchAt (c :: cs) with
    | some (g1, g2, rem) => (g1, g2) :: findXYF fuel rem
    | none => findXYF fuel cs

/-- All coordinate-pattern matches of a string, in order. -/
def findXY (s : List Char) : List (List Char × List Char) := findXYF s.length s

/-- `float` both groups of every match; a failure anywhere is a
`ValueError`. -/
def parsePairs : List (List Char × List Char) → Option (List (ℚ × ℚ))
  | [] => some []
  | (g1, g2) :: t =>
    match pyFloat g1, pyFloat g2, parsePairs t with
    | some x, some y, some ps => some ((x, y) :: ps)
    | _, _, _ => none

/-- `parse_points`: extract every `(xy X Y)` coordinate of the
point-list text, in order of appearance. -/
def parse_points (s : List Char) : Option (List (ℚ × ℚ)) :=
  parsePairs (findXY s)

/-- `scale_points`: multiply both components of every point. -/
def scale_points (ps : List (ℚ × ℚ)) (f : ℚ) : List (ℚ × ℚ) :=
  ps.map (fun p => (p.1 * f, p.2 * f))

/-- The default indent of `format_points`. -/
def defaultIndent : List Char := chars "      "

/-- One formatted coordinate line. -/
def xyLine (indent : List Char) (p : ℚ × ℚ) : List Char :=
  indent ++ chars "(xy " ++ fmtFixed 6 p.1 ++ ' ' :: fmtFixed 6 p.2 ++ [')']

/-- Python's `"\n".join`. -/
def joinNL : List (List Char) → List Char
  | [] => []
  | [l] => l
  | l :: ls => l ++ '\n' :: joinNL ls

/-- `format_points`: one indented `(xy X Y)` line per point, six
decimal places, lines joined by newlines. -/
def format_points (ps : List (ℚ × ℚ)) (indent : List Char) : List Char :=
  joinNL (ps.map (xyLine indent))

/-- Split a whitespace run after its last newline: the regex fragment
`\s*\n` on a maximal whitespace run `w` consumes `a` where
`w = a ++ b`, `a` ends with the last `'\n'` of `w`, and `b` has none. -/
def splitLastNL (w : List Char) : Option (List Char × List Char) :=
  let b := w.reverse.takeWhile (fun c => !(c = '\n'))
  let a := w.reverse.dropWhile (fun c => !(c = '\n'))
  if a.isEmpty then none else some (a.reverse, b.reverse)

/-- The tail `\s*\)\s*\(stroke` of the polygon pattern at the head of
`s`: skip whitespace, a closing parenthesis, skip whitespace, the
literal `(stroke`; on success the text after `(stroke`. -/
def strokeTail (s : List Char) : Option (List Char) :=
  match s.dropWhile isPySpace with
  | [] => none
  | c :: r => if c = ')' then lit (chars "(stroke") (r.dropWhile isPySpace) else none

/-- The lazy gap `(.*?)` before the stroke tail: the shortest prefix
(of any characters, `re.DOTALL`) whose continuation matches the tail.
Returns the gap (capture group 2) and the text after `(stroke`. -/
def lazySplit : List Char → Option (List Char × List Char)
  | [] =>
    match strokeTail [] with
    | some rem => some ([], rem)
    | none => none
  | c :: cs =>
    match strokeTail (c :: cs) with
    | some rem => some ([], rem)
    | none => (lazySplit cs).map (fun p => (c :: p.1, p.2))

/-- The literal head `  \(fp_poly` of the polygon pattern. -/
def polyHeader : List Char := chars "  (fp_poly"

/-- One attempt of the polygon pattern
`(  \(fp_poly\s+\(pts\s*\n)(.*?)\s*\)\s*\(stroke` at the head of `s`:
on success the captured header (group 1), the point-list text
(group 2) and the text after `(stroke`. -/
def polyMatchAt (s : List Char) : Option (List Char × List Char × List Char) :=
  match lit polyHeader s with
  | none => none
  | some r1 =>
    let ws1 := r1.takeWhile isPySpace
    let r2 := r1.dropWhile isPySpace
    if ws1.isEmpty then none else
    match lit (chars "(pts") r2 with
    | none => none
    | some r3 =>
      let w := r3.takeWhile isPySpace
      let r4 := r3.dropWhile isPySpace
      match splitLastNL w with
      | none => none
      | some (a, b) =>
        match lazySplit (b ++ r4) with
        | none => none
        | some (g2, rem) =>
          some (polyHeader ++ ws1 ++ chars "(pts" ++ a, g2, rem)

/-- One step of the polygon rewrite: where the polygon pattern
matches, the replacement `f"{header}{new_points}\n    ) (stroke"`
(`none` inside means `float` raised in `parse_points`) and the resume
point. -/
def polyStep (f : ℚ) (s : List Char) : Option (Option (List Char) × List Char) :=
  match polyMatchAt s with
  | none => none
  | some (h, g2, rem) =>
    some ((parse_points g2).map
      (fun ps => h ++ format_points (scale_points ps f) defaultIndent ++
        chars "\n    ) (stroke"), rem)

/-- One attempt of the size pattern `\(size ([\d.]+) ([\d.]+)\)` at
the head of `s`. -/
def sizeMatchAt (s : List Char) : Option (List Char × List Char × List Char) :=
  match lit (chars "(size ") s with
  | none => none
  | some r1 =>
    let g1 := r1.takeWhile isSizeChar
    let r2 := r1.dropWhile isSizeChar
    if g1.isEmpty then none else
    match r2 with
    | [] => none
    | c :: r3 =>
      if c = ' ' then
        let g2 := r3.takeWhile isSizeChar
        let r4 := r3.dropWhile isSizeChar
        if g2.isEmpty then none else
        match r4 with
        | [] => none
        | c2 :: rem => if c2 = ')' then some (g1, g2, rem) else none
      else none

/-- One step of the size rewrite: the replacement
`f'(size {W*f:.3f} {H*f:.3f})'`. -/
def sizeStep (f : ℚ) (s : List Char) : Option (Option (List Char) × List Char) :=
  match sizeMatchAt s with
  | none => none
  | some (g1, g2, rem) =>
    some ((match pyFloat g1, pyFloat g2 with
      | some w, some h =>
        some (chars "(size " ++ fmtFixed 3 (w * f) ++ ' ' :: fmtFixed 3 (h * f) ++ [')'])
      | _, _ => none), rem)

/-- One attempt of the thickness pattern `\(thickness ([\d.]+)\)` at
the head of `s`. -/
def thicknessMatchAt (s : List Char) : Option (List Char × List Char) :=
  match lit (chars "(thickness ") s with
  | none => none
  | some r1 =>
    let g1 := r1.takeWhile isSizeChar
    let r2 := r1.dropWhile isSizeChar
    if g1.isEmpty then none else
    match r2 with
    | [] => none
    | c :: rem => if c = ')' then some (g1, rem) else none

/-- One step of the thickness rewrite: the replacement
`f'(thickness {T*f:.3f})'`. -/
def thicknessStep (f : ℚ) (s : List Char) : Option (Option (List Char) × List Char) :=
  match thicknessMatchAt s with
  | none => none
  | some (g1, rem) =>
    some ((match pyFloat g1 with
      | some t => some (chars "(thickness " ++ fmtFixed 3 (t * f) ++ [')'])
      | none => none), rem)

/-- `re.sub`'s scan loop, with fuel: at each position try `step`; on a
match emit its replacement (propagating a `ValueError` from the
callback) and resume after the match, otherwise keep the character and
move one position right. -/
def subF (step : List Char → Option (Option (List Char) × List Char)) :
    ℕ → List Char → Option (List Char)
  | 0, s => if s.isEmpty then some [] else none
  | _ + 1, [] => some []
  | fuel + 1, c :: cs =>
    match step (c :: cs) with
    | some (ro, rem) =>
      match ro with
      | none => none
      | some r =>
        match subF step fuel rem with
        | none => none
        | some t => some (r ++ t)
    | none =>
      match subF step fuel cs with
      | none => none
      | some t => some (c :: t)

/-- `re.sub` over a whole string. -/
def applySub (step : List Char → Option (Option (List Char) × List Char))
    (s : List Char) : Option (List Char) :=
  subF step s.length s

/-- Does the pattern behind `step` match anywhere in `s`? -/
def hasMatch (step : List Char → Option (Option (List Char) × List Char)) :
    List Char → Bool
  | [] => false
  | c :: cs => (step (c :: cs)).isSome || hasMatch step cs

/-- Do all of `step`'s replacement callbacks succeed on `s` (no
`ValueError` from `float`), with fuel? -/
def okF (step : List Char → Option (Option (List Char) × List Char)) :
    ℕ → List Char → Bool
  | 0, _ => true
  | _ + 1, [] => true
  | fuel + 1, c :: cs =>
    match step (c :: cs) with
    | some (ro, rem) => ro.isSome && okF step fuel rem
    | none => okF step fuel cs

/-- Do all of `step`'s replacement callbacks succeed on `s`? -/
def okAll (step : List Char → Option (Option (List Char) × List Char))
    (s : List Char) : Bool :=
  okF step s.length s

/-- No match of `step` can begin at any position inside `s`, whatever
text follows `s`. -/
def CleanFor (step : List Char → Option (Option (List Char) × List Char))
    (s : List Char) : Prop :=
  ∀ pre c suf, s = pre ++ c :: suf → ∀ t, step (c :: (suf ++ t)) = none

/-- The polygon pass of `scale_footprint`. -/
def polySub (s : List Char) (f : ℚ) : Option (List Char) := applySub (polyStep f) s

/-- The size pass of `scale_footprint`. -/
def sizeSub (s : List Char) (f : ℚ) : Option (List Char) := applySub (sizeStep f) s

/-- The thickness pass of `scale_footprint`. -/
def thicknessSub (s : List Char) (f : ℚ) : Option (List Char) := applySub (thicknessStep f) s

/-- `scale_footprint`: rewrite the polygon point lists, then the size
fields of the result, then the thickness fields of that result.
`none` is an uncaught `ValueError` from `float` inside a callback. -/
def scale_footprint (content : List Char) (f : ℚ) : Option (List Char) :=
  match polySub content f with
  | none => none
  | some s1 =>
    match sizeSub s1 f with
    | none => none
    | some s2 => thicknessSub s2 f

/-- A value of Python `float(...)` on raw prompt input: an ordinary
(finite) number, or one of the special values `nan`, `inf`, `-inf`
that `float` also accepts from strings. -/
inductive FloatVal : Type where
  | num : ℚ → FloatVal
  | nan : FloatVal
  | inf : FloatVal
  | ninf : FloatVal
deriving DecidableEq

/-- Python's `f < 0` on a float, including the special values:
`nan < 0` is `False`, `inf < 0` is `False`, `-inf < 0` is `True`. -/
def pyLtZero : FloatVal → Bool
  | .num q => decide (q < 0)
  | .nan => false
  | .inf => false
  | .ninf => true

/-- Python's `f == 0` on a float: `False` on every special value. -/
def pyEqZero : FloatVal → Bool
  | .num q => decide (q = 0)
  | .nan => false
  | .inf => false
  | .ninf => false

/-- Python's `f > 0` on a float: `nan > 0` is `False`. -/
def pyGtZero : FloatVal → Bool
  | .num q => decide (0 < q)
  | .nan => false
  | .inf => true
  | .ninf => false

/-- Negation of a float value (the sign in front of `inf`/`nan`). -/
def fvNeg : FloatVal → FloatVal
  | .num q => .num (-q)
  | .nan => .nan
  | .inf => .ninf
  | .ninf => .inf

/-- Consume a maximal digit run with PEP 515 underscores (an
underscore must sit between two digits): returns the value, the digit
count, and the unconsumed remainder. -/
def takeDigitsU : List Char → ℕ → ℕ → ℕ × ℕ × List Char
  | [], v, n => (v, n, [])
  | c :: cs, v, n =>
    if c.isDigit then takeDigitsU cs (10 * v + charVal c) (n + 1)
    else if c = '_' then
      match cs with
      | [] => (v, n, c :: cs)
      | c2 :: cs2 =>
        if 0 < n ∧ c2.isDigit = true then takeDigitsU cs2 (10 * v + charVal c2) (n + 1)
        else (v, n, c :: cs)
    else (v, n, c :: cs)

/-- The optional exponent tail `(e|E)[+-]?digits` after a mantissa
`m`; the whole remainder must be consumed. -/
def expTail (r : List Char) (m : ℚ) : Option ℚ :=
  match r with
  | [] => some m
  | c :: r1 =>
    if c = 'e' ∨ c = 'E' then
      match r1 with
      | [] => none
      | c2 :: r2 =>
        let (ev, ne, r3) :=
          if c2 = '-' ∨ c2 = '+' then takeDigitsU r2 0 0 else takeDigitsU r1 0 0
        if ne = 0 then none
        else if ¬r3.isEmpty then none
        else if c2 = '-' then some (m / 10 ^ ev) else some (m * 10 ^ ev)
    else none

/-- An unsigned finite float literal: digits, an optional dot and
fraction (at least one digit overall), and an optional exponent;
underscores per PEP 515. -/
def parseFiniteU (s : List Char) : Option ℚ :=
  match takeDigitsU s 0 0 with
  | (ip, ni, r1) =>
    match r1 with
    | [] => if ni = 0 then none else some (ip : ℚ)
    | c :: r2 =>
      if c = '.' then
        match takeDigitsU r2 0 0 with
        | (fp, nf, r3) =>
          if ni = 0 ∧ nf = 0 then none
          else expTail r3 ((ip : ℚ) + (fp : ℚ) / 10 ^ nf)
      else if ni = 0 then none
      else expTail r1 (ip : ℚ)

/-- Case-insensitive comparison against a lowercase word. -/
def lowerEq (s p : List Char) : Bool := s.map Char.toLower = p

/-- The rounding boundary above which a positive real becomes `inf`
as a double: halfway between the largest finite double and `2^1024`. -/
def dblOverflow : ℚ := ((2 ^ 1024 - 2 ^ 970 : ℕ) : ℚ)

/-- The boundary at or below which a positive real underflows to
`+0.0` as a double: half the smallest subnormal (ties to even). -/
def dblUnderflow : ℚ := 1 / ((2 ^ 1075 : ℕ) : ℚ)

/-- Convert the exact value of a finite literal to the double `float`
returns, keeping finite nonzero values exact (the file-wide ℚ
idealization) but applying the overflow-to-`inf` and
underflow-to-zero cutoffs, which change the guard behavior. -/
def clampDouble (q : ℚ) : FloatVal :=
  if dblOverflow ≤ q then FloatVal.inf
  else if q ≤ dblUnderflow then FloatVal.num 0
  else FloatVal.num q

/-- An unsigned float body: `inf`, `infinity`, `nan` (any case) or a
finite literal clamped to the double range. -/
def floatBody (u : List Char) : Option FloatVal :=
  if lowerEq u (chars "inf") ∨ lowerEq u (chars "infinity") then some FloatVal.inf
  else if lowerEq u (chars "nan") then some FloatVal.nan
  else (parseFiniteU u).map clampDouble

/-- Python `float(...)` on a raw prompt string: strip surrounding
whitespace, an optional sign, then an `inf`/`infinity`/`nan` word or a
finite literal.  `none` is a `ValueError`.  (ASCII whitespace and
digits; finite values are exact rationals, the file-wide idealization
of the script's doubles.)  This is the parser `get_scale_factor`
applies to unconstrained user input; the captured regex groups inside
the rewriter use `pyFloat`, whose characters are restricted to the
classes `[-\d.]` and `[\d.]`. -/
def floatInput (s : List Char) : Option FloatVal :=
  match ((s.dropWhile isPySpace).reverse.dropWhile isPySpace).reverse with
  | [] => none
  | c :: r =>
    if c = '-' then (floatBody r).map fvNeg
    else if c = '+' then floatBody r
    else floatBody (c :: r)

/-- `get_scale_factor` over the stream of prompt answers: re-prompt on
a `ValueError` or on `f < 0`, return the first accepted factor;
`none` if the stream runs out.  Note `nan < 0` is `False`, so `nan`
is accepted. -/
def get_scale_factor : List (List Char) → Option FloatVal
  | [] => none
  | i :: rest =>
    match floatInput i with
    | none => get_scale_factor rest
    | some f => if pyLtZero f then get_scale_factor rest else some f

/-- `process_footprint` over the stream of prompt answers: a factor
with `f == 0` returns `False` (select a new file) without scaling;
otherwise `scale_footprint` is invoked with the factor.  The result
records the returned boolean and, when the transform ran, the factor
it was invoked with together with its output.  For a finite factor the
output is the ℚ-modelled rewriter's result (`none` overall if it
raised); for a non-finite factor (`nan`/`inf`, which pass both
guards) the invocation is recorded but the rewritten text — finite
precision renderings of `nan`/`inf` products in the real script — is
outside the ℚ-valued model of the rewriter and is left unmodelled. -/
def process_footprint (content : List Char) (inputs : List (List Char)) :
    Option (Bool × Option (FloatVal × Option (List Char))) :=
  match get_scale_factor inputs with
  | none => none
  | some f =>
    if pyEqZero f then some (false, none)
    else
      match f with
      | FloatVal.num q =>
        match scale_footprint content q with
        | none => none
        | some out => some (true, some (f, some out))
      | _ => some (true, some (f, none))

/-! ## List scanning basics -/

theorem length_dropWhile_le (p : Char → Bool) (l : List Char) :
    (l.dropWhile p).length ≤ l.length := by
  induction l with
  | nil => simp
  | cons c cs ih =>
    by_cases h : p c <;> simp [List.dropWhile_cons, h] <;> omega

theorem takeWhile_append_not (p : Char → Bool) (l : List Char) (c : Char) (r : List Char)
    (hl : ∀ x ∈ l, p x = true) (hc : p c = false) :
    (l ++ c :: r).takeWhile p = l ∧ (l ++ c :: r).dropWhile p = c :: r := by
  induction l with
  | nil => simp [List.takeWhile_cons, List.dropWhile_cons, hc]
  | cons a l ih =>
    have ha : p a = true := hl a (by simp)
    have h2 := ih (fun x hx => hl x (by simp [hx]))
    simp [List.takeWhile_cons, List.dropWhile_cons, ha, h2.1, h2.2]

theorem takeWhile_of_all (p : Char → Bool) (l : List Char) (hl : ∀ x ∈ l, p x = true) :
    l.takeWhile p = l ∧ l.dropWhile p = [] := by
  induction l with
  | nil => simp
  | cons a l ih =>
    have ha : p a = true := hl a (by simp)
    have h2 := ih (fun x hx => hl x (by simp [hx]))
    simp [List.takeWhile_cons, List.dropWhile_cons, ha, h2.1, h2.2]

theorem lit_self_append (p r : List Char) : lit p (p ++ r) = some r := by
  induction p with
  | nil => rfl
  | cons a p ih => simp [lit, ih]

theorem lit_length (p : List Char) :
    ∀ s r, lit p s = some r → r.length + p.length = s.length := by
  induction p with
  | nil =>
    intro s r h
    simp only [lit, Option.some.injEq] at h
    subst h; simp
  | cons a p ih =>
    intro s r h
    cases s with
    | nil => simp [lit] at h
    | cons c cs =>
      rw [lit] at h
      split at h
      · have := ih cs r h
        simp only [List.length_cons]
        omega
      · exact absurd h (by simp)

/-! ## Decimal digits -/

theorem digitsRecF_irrel :
    ∀ f1 f2 n : ℕ, n ≤ f1 → n ≤ f2 → digitsRecF f1 n = digitsRecF f2 n := by
  intro f1
  induction f1 with
  | zero =>
    intro f2 n h1 _
    interval_cases n
    cases f2 <;> rfl
  | succ f ih =>
    intro f2 n h1 h2
    cases n with
    | zero => cases f2 <;> rfl
    | succ m =>
      cases f2 with
      | zero => omega
      | succ f2' =>
        simp only [digitsRecF]
        have hlt : (m + 1) / 10 < m + 1 := Nat.div_lt_self (by omega) (by omega)
        exact congrArg _ (ih f2' ((m + 1) / 10) (by omega) (by omega))

theorem natDigits_succ (n : ℕ) (h : n ≠ 0) :
    natDigits n = (n % 10) :: natDigits (n / 10) := by
  cases n with
  | zero => exact absurd rfl h
  | succ m =>
    show digitsRecF (m + 1) (m + 1) = _
    simp only [digitsRecF]
    have hlt : (m + 1) / 10 < m + 1 := Nat.div_lt_self (by omega) (by omega)
    exact congrArg _ (digitsRecF_irrel m ((m + 1) / 10) ((m + 1) / 10) (by omega) (by omega))

theorem valLE_natDigits (n : ℕ) : valLE (natDigits n) = n := by
  induction n using Nat.strong_induction_on with
  | _ n ih =>
    rcases Nat.eq_zero_or_pos n with rfl | hpos
    · rfl
    · rw [natDigits_succ n (by omega), valLE,
        ih (n / 10) (Nat.div_lt_self hpos (by omega))]
      omega

theorem natDigits_lt_ten (n : ℕ) : ∀ d ∈ natDigits n, d < 10 := by
  induction n using Nat.strong_induction_on with
  | _ n ih =>
    rcases Nat.eq_zero_or_pos n with rfl | hpos
    · intro d hd; simp [natDigits, digitsRecF] at hd
    · rw [natDigits_succ n (by omega)]
      intro d hd
      rcases List.mem_cons.mp hd with rfl | hd
      · exact Nat.mod_lt _ (by omega)
      · exact ih (n / 10) (Nat.div_lt_self hpos (by omega)) d hd

theorem natDigits_length_le (k : ℕ) :
    ∀ n : ℕ, n < 10 ^ k → (natDigits n).length ≤ k := by
  induction k with
  | zero =>
    intro n h
    interval_cases n
    simp [natDigits, digitsRecF]
  | succ k ih =>
    intro n h
    rcases Nat.eq_zero_or_pos n with rfl | hpos
    · simp [natDigits, digitsRecF]
    · rw [natDigits_succ n (by omega)]
      simp only [List.length_cons]
      have hq : n / 10 < 10 ^ k := by
        rw [pow_succ] at h
        exact (Nat.div_lt_iff_lt_mul (by omega)).mpr h
      exact Nat.succ_le_succ (ih _ hq)

theorem natDigits_ne_nil (n : ℕ) (h : n ≠ 0) : natDigits n ≠ [] := by
  rw [natDigits_succ n h]; simp

theorem charVal_digitChar (d : ℕ) (h : d < 10) : charVal (digitChar d) = d := by
  interval_cases d <;> rfl

theorem isDigit_digitChar (d : ℕ) (h : d < 10) : (digitChar d).isDigit = true := by
  interval_cases d <;> rfl

theorem foldl_digits (L : List ℕ) (hL : ∀ d ∈ L, d < 10) :
    ∀ a : ℕ, List.foldl (fun acc c => 10 * acc + charVal c) a (L.reverse.map digitChar) =
      a * 10 ^ L.length + valLE L := by
  induction L with
  | nil => intro a; simp [valLE]
  | cons d t ih =>
    intro a
    have hd : d < 10 := hL d (by simp)
    have ht : ∀ x ∈ t, x < 10 := fun x hx => hL x (by simp [hx])
    simp only [List.reverse_cons, List.map_append, List.map_cons, List.map_nil,
      List.foldl_append, List.foldl_cons, List.foldl_nil, List.length_cons]
    rw [ih ht a, charVal_digitChar d hd, valLE]
    ring

theorem digitsVal_natChars (n : ℕ) : digitsVal (natChars n) = n := by
  rcases eq_or_ne n 0 with rfl | h
  · rfl
  · rw [natChars, if_neg h, digitsVal, foldl_digits _ (natDigits_lt_ten n) 0,
      valLE_natDigits]
    simp

theorem foldl_zero_run (m : ℕ) :
    List.foldl (fun acc c => 10 * acc + charVal c) 0 (List.replicate m '0') = 0 := by
  induction m with
  | zero => rfl
  | succ j ih =>
    simp only [List.replicate_succ, List.foldl_cons]
    have h0 : 10 * 0 + charVal '0' = 0 := rfl
    rw [h0]
    exact ih

theorem digitsVal_fracChars (k n : ℕ) : digitsVal (fracChars k n) = n := by
  rw [fracChars, digitsVal, List.foldl_append, foldl_zero_run,
    foldl_digits _ (natDigits_lt_ten n) 0, valLE_natDigits]
  simp

theorem length_fracChars (k n : ℕ) (h : n < 10 ^ k) : (fracChars k n).length = k := by
  have hle := natDigits_length_le k n h
  simp only [fracChars, List.length_append, List.length_replicate, List.length_map,
    List.length_reverse]
  omega

theorem natChars_digits (n : ℕ) : ∀ c ∈ natChars n, c.isDigit = true := by
  rcases eq_or_ne n 0 with rfl | h
  · intro c hc; simp [natChars] at hc; subst hc; rfl
  · rw [natChars, if_neg h]
    intro c hc
    simp only [List.mem_map, List.mem_reverse] at hc
    obtain ⟨d, hd, rfl⟩ := hc
    exact isDigit_digitChar d (natDigits_lt_ten n d hd)

theorem fracChars_digits (k n : ℕ) : ∀ c ∈ fracChars k n, c.isDigit = true := by
  intro c hc
  rw [fracChars, List.mem_append] at hc
  rcases hc with hc | hc
  · rw [List.eq_of_mem_replicate hc]; rfl
  · simp only [List.mem_map, List.mem_reverse] at hc
    obtain ⟨d, hd, rfl⟩ := hc
    exact isDigit_digitChar d (natDigits_lt_ten n d hd)

theorem natChars_ne_nil (n : ℕ) : natChars n ≠ [] := by
  rcases eq_or_ne n 0 with rfl | h
  · simp [natChars]
  · rw [natChars, if_neg h]
    have := natDigits_ne_nil n h
    simp [this]

/-! ## Character classes -/

theorem isDigit_isNumChar (c : Char) (h : c.isDigit = true) : isNumChar c = true := by
  simp [isNumChar, h]

theorem isDigit_isSizeChar (c : Char) (h : c.isDigit = true) : isSizeChar c = true := by
  simp [isSizeChar, h]

theorem numChar_cases (c : Char) (h : isNumChar c = true) :
    c = '-' ∨ c.isDigit = true ∨ c = '.' := by
  simpa [isNumChar, or_assoc] using h

theorem sizeChar_cases (c : Char) (h : isSizeChar c = true) :
    c.isDigit = true ∨ c = '.' := by
  simpa [isSizeChar, or_assoc] using h

theorem digit_not_space (c : Char) (h : c.isDigit = true) : isPySpace c = false := by
  cases hsp : isPySpace c
  · rfl
  · exfalso
    rcases (by simpa [isPySpace, or_assoc] using hsp :
        c = ' ' ∨ c = '\t' ∨ c = '\n' ∨ c = '\r' ∨ c = '\x0b' ∨ c = '\x0c') with
      rfl | rfl | rfl | rfl | rfl | rfl <;> exact absurd h (by decide)

theorem numChar_not_space (c : Char) (h : isNumChar c = true) : isPySpace c = false := by
  rcases numChar_cases c h with rfl | hd | rfl
  · rfl
  · exact digit_not_space c hd
  · rfl

theorem digit_ne_minus (c : Char) (h : c.isDigit = true) : c ≠ '-' := by
  rintro rfl; exact absurd h (by decide)

theorem digit_ne_plus (c : Char) (h : c.isDigit = true) : c ≠ '+' := by
  rintro rfl; exact absurd h (by decide)

theorem numChar_ne_rpar (c : Char) (h : isNumChar c = true) : c ≠ ')' := by
  rintro rfl; exact absurd h (by decide)

theorem numChar_ne_lpar (c : Char) (h : isNumChar c = true) : c ≠ '(' := by
  rintro rfl; exact absurd h (by decide)

theorem sizeChar_ne_space (c : Char) (h : isSizeChar c = true) : c ≠ ' ' := by
  rintro rfl; exact absurd h (by decide)

theorem sizeChar_ne_rpar (c : Char) (h : isSizeChar c = true) : c ≠ ')' := by
  rintro rfl; exact absurd h (by decide)

/-! ## Parsing a fixed-precision rendering -/

theorem fmtFixed_all_num (k : ℕ) (q : ℚ) : ∀ c ∈ fmtFixed k q, isNumChar c = true := by
  intro c hc
  rw [fmtFixed] at hc
  rcases List.mem_append.mp hc with hc | hc
  · rcases List.mem_append.mp hc with hc | hc
    · split at hc
      · rw [List.mem_singleton.mp hc]; rfl
      · simp at hc
    · exact isDigit_isNumChar c (natChars_digits _ c hc)
  · rcases List.mem_cons.mp hc with rfl | hc
    · rfl
    · exact isDigit_isNumChar c (fracChars_digits _ _ c hc)

theorem fmtFixed_ne_nil (k : ℕ) (q : ℚ) : fmtFixed k q ≠ [] := by
  simp [fmtFixed]

theorem pyFloatCore_intfrac (ip fr : List Char)
    (hip : ∀ c ∈ ip, c.isDigit = true) (hne : ip ≠ [])
    (hfr : ∀ c ∈ fr, c.isDigit = true) :
    pyFloatCore (ip ++ '.' :: fr) =
      some ((digitsVal ip : ℚ) + (digitsVal fr : ℚ) / (10 : ℚ) ^ fr.length) := by
  obtain ⟨htw, hdw⟩ := takeWhile_append_not Char.isDigit ip '.' fr hip (by decide)
  have hipE : ip.isEmpty = false := by
    cases ip with
    | nil => exact absurd rfl hne
    | cons a t => rfl
  have hall : fr.all Char.isDigit = true := List.all_eq_true.mpr hfr
  unfold pyFloatCore
  simp only [htw, hdw, hipE, hall, if_pos rfl, Bool.false_and, Bool.and_eq_true]
  simp

theorem pyFloat_fmtFixed (k : ℕ) (q : ℚ) : pyFloat (fmtFixed k q) = some (roundTo k q) := by
  have hBpos : (0 : ℕ) < 10 ^ k := by positivity
  have hmlt : (rhe (q * 10 ^ k)).natAbs % 10 ^ k < 10 ^ k := Nat.mod_lt _ hBpos
  have hcore : pyFloatCore (natChars ((rhe (q * 10 ^ k)).natAbs / 10 ^ k) ++
      '.' :: fracChars k ((rhe (q * 10 ^ k)).natAbs % 10 ^ k)) =
      some (((rhe (q * 10 ^ k)).natAbs : ℚ) / 10 ^ k) := by
    rw [pyFloatCore_intfrac _ _ (natChars_digits _) (natChars_ne_nil _) (fracChars_digits _ _)]
    congr 1
    rw [digitsVal_natChars, digitsVal_fracChars, length_fracChars _ _ hmlt]
    have h2 : (rhe (q * 10 ^ k)).natAbs / 10 ^ k * 10 ^ k +
        (rhe (q * 10 ^ k)).natAbs % 10 ^ k = (rhe (q * 10 ^ k)).natAbs := by
      rw [Nat.mul_comm]
      exact Nat.div_add_mod _ _
    have hBQ : ((10 : ℚ) ^ k) ≠ 0 := by positivity
    field_simp
    exact_mod_cast h2
  rcases lt_or_ge (rhe (q * 10 ^ k)) 0 with hneg | hpos
  · rw [fmtFixed, if_pos hneg]
    have hshape : (['-'] ++ natChars ((rhe (q * 10 ^ k)).natAbs / 10 ^ k) ++
        '.' :: fracChars k ((rhe (q * 10 ^ k)).natAbs % 10 ^ k)) =
        '-' :: (natChars ((rhe (q * 10 ^ k)).natAbs / 10 ^ k) ++
        '.' :: fracChars k ((rhe (q * 10 ^ k)).natAbs % 10 ^ k)) := by simp
    rw [hshape, pyFloat]
    have habs : (((rhe (q * 10 ^ k)).natAbs : ℚ)) = -((rhe (q * 10 ^ k) : ℚ)) := by
      rw [Int.cast_natAbs, abs_of_neg hneg]
      push_cast
      ring
    rw [habs] at hcore
    simp [hcore, roundTo, neg_div]
  · rw [fmtFixed, if_neg (by omega)]
    obtain ⟨c, t, hct⟩ := List.exists_cons_of_ne_nil
      (natChars_ne_nil ((rhe (q * 10 ^ k)).natAbs / 10 ^ k))
    have hcd : c.isDigit = true := natChars_digits _ c (by rw [hct]; simp)
    have hshape : ([] ++ natChars ((rhe (q * 10 ^ k)).natAbs / 10 ^ k) ++
        '.' :: fracChars k ((rhe (q * 10 ^ k)).natAbs % 10 ^ k)) =
        c :: (t ++ '.' :: fracChars k ((rhe (q * 10 ^ k)).natAbs % 10 ^ k)) := by
      rw [List.nil_append, hct]; simp
    rw [hshape, pyFloat]
    rw [if_neg (by exact fun h => digit_ne_minus c hcd h),
      if_neg (by exact fun h => digit_ne_plus c hcd h)]
    have hback : (c :: (t ++ '.' :: fracChars k ((rhe (q * 10 ^ k)).natAbs % 10 ^ k))) =
        natChars ((rhe (q * 10 ^ k)).natAbs / 10 ^ k) ++
        '.' :: fracChars k ((rhe (q * 10 ^ k)).natAbs % 10 ^ k) := by
      rw [hct]; simp
    rw [hback, hcore, roundTo]
    congr 1
    rw [Int.cast_natAbs, abs_of_nonneg hpos]

/-! ## Cons-step computation lemmas -/

theorem takeWhile_cons_pos (p : Char → Bool) (c : Char) (l : List Char) (h : p c = true) :
    (c :: l).takeWhile p = c :: l.takeWhile p := by
  simp [List.takeWhile_cons, h]

theorem takeWhile_cons_neg (p : Char → Bool) (c : Char) (l : List Char) (h : p c = false) :
    (c :: l).takeWhile p = [] := by
  simp [List.takeWhile_cons, h]

theorem dropWhile_cons_pos (p : Char → Bool) (c : Char) (l : List Char) (h : p c = true) :
    (c :: l).dropWhile p = l.dropWhile p := by
  simp [List.dropWhile_cons, h]

theorem dropWhile_cons_neg (p : Char → Bool) (c : Char) (l : List Char) (h : p c = false) :
    (c :: l).dropWhile p = c :: l := by
  simp [List.dropWhile_cons, h]

/-! ## The coordinate matcher -/

theorem xyMatchAt_none_of_ne (c : Char) (cs : List Char) (h : c ≠ '(') :
    xyMatchAt (c :: cs) = none := by
  have hc : chars "(xy" = '(' :: 'x' :: 'y' :: [] := rfl
  have hl : lit (chars "(xy") (c :: cs) = none := by
    rw [hc, lit, if_neg h]
  rw [xyMatchAt, hl]

theorem xyMatchAt_exact (A B rest : List Char)
    (hA : A ≠ []) (hAn : ∀ c ∈ A, isNumChar c = true)
    (hB : B ≠ []) (hBn : ∀ c ∈ B, isNumChar c = true) :
    xyMatchAt (chars "(xy " ++ A ++ ' ' :: B ++ ')' :: rest) = some (A, B, rest) := by
  obtain ⟨a, A', rfl⟩ := List.exists_cons_of_ne_nil hA
  obtain ⟨b, B', rfl⟩ := List.exists_cons_of_ne_nil hB
  have hA1 : ∀ x ∈ A', isNumChar x = true := fun x hx => hAn x (by simp [hx])
  have hB1 : ∀ x ∈ B', isNumChar x = true := fun x hx => hBn x (by simp [hx])
  have ha : isNumChar a = true := hAn a (by simp)
  have hb : isNumChar b = true := hBn b (by simp)
  have twA := takeWhile_append_not isNumChar A' ' ' (b :: (B' ++ ')' :: rest)) hA1 (by decide)
  have twB := takeWhile_append_not isNumChar B' ')' rest hB1 (by decide)
  have hsh : chars "(xy " ++ (a :: A') ++ ' ' :: (b :: B') ++ ')' :: rest =
      chars "(xy" ++ (' ' :: a :: (A' ++ ' ' :: b :: (B' ++ ')' :: rest))) := by
    have hx1 : chars "(xy " = ['(', 'x', 'y', ' '] := rfl
    have hx2 : chars "(xy" = ['(', 'x', 'y'] := rfl
    rw [hx1, hx2]
    simp
  have e1 : (' ' :: a :: (A' ++ ' ' :: b :: (B' ++ ')' :: rest))).takeWhile isPySpace
      = [' '] := by
    rw [takeWhile_cons_pos _ _ _ (by decide),
      takeWhile_cons_neg _ _ _ (numChar_not_space a ha)]
  have e2 : (' ' :: a :: (A' ++ ' ' :: b :: (B' ++ ')' :: rest))).dropWhile isPySpace
      = a :: (A' ++ ' ' :: b :: (B' ++ ')' :: rest)) := by
    rw [dropWhile_cons_pos _ _ _ (by decide),
      dropWhile_cons_neg _ _ _ (numChar_not_space a ha)]
  have e3 : (a :: (A' ++ ' ' :: b :: (B' ++ ')' :: rest))).takeWhile isNumChar
      = a :: A' := by
    rw [takeWhile_cons_pos _ _ _ ha, twA.1]
  have e4 : (a :: (A' ++ ' ' :: b :: (B' ++ ')' :: rest))).dropWhile isNumChar
      = ' ' :: b :: (B' ++ ')' :: rest) := by
    rw [dropWhile_cons_pos _ _ _ ha, twA.2]
  have e5 : (' ' :: b :: (B' ++ ')' :: rest)).takeWhile isPySpace = [' '] := by
    rw [takeWhile_cons_pos _ _ _ (by decide),
      takeWhile_cons_neg _ _ _ (numChar_not_space b hb)]
  have e6 : (' ' :: b :: (B' ++ ')' :: rest)).dropWhile isPySpace
      = b :: (B' ++ ')' :: rest) := by
    rw [dropWhile_cons_pos _ _ _ (by decide),
      dropWhile_cons_neg _ _ _ (numChar_not_space b hb)]
  have e7 : (b :: (B' ++ ')' :: rest)).takeWhile isNumChar = b :: B' := by
    rw [takeWhile_cons_pos _ _ _ hb, twB.1]
  have e8 : (b :: (B' ++ ')' :: rest)).dropWhile isNumChar = ')' :: rest := by
    rw [dropWhile_cons_pos _ _ _ hb, twB.2]
  rw [hsh, xyMatchAt, lit_self_append]
  simp only [e1, e2, e3, e4, e5, e6, e7, e8]
  simp

theorem xyMatchAt_length (s g1 g2 rem : List Char)
    (h : xyMatchAt s = some (g1, g2, rem)) : rem.length < s.length := by
  rw [xyMatchAt] at h
  cases hl : lit (chars "(xy") s with
  | none => rw [hl] at h; exact absurd h (by simp)
  | some r0 =>
    rw [hl] at h
    have hr0 : r0.length + 3 = s.length := lit_length _ _ _ hl
    simp only [] at h
    split at h
    · exact absurd h (by simp)
    · split at h
      · exact absurd h (by simp)
      · split at h
        · exact absurd h (by simp)
        · split at h
          · exact absurd h (by simp)
          · have hle1 := length_dropWhile_le isPySpace r0
            have hle2 := length_dropWhile_le isNumChar (r0.dropWhile isPySpace)
            have hle3 := length_dropWhile_le isPySpace
              ((r0.dropWhile isPySpace).dropWhile isNumChar)
            have hle4 := length_dropWhile_le isNumChar
              (((r0.dropWhile isPySpace).dropWhile isNumChar).dropWhile isPySpace)
            split at h
            · exact absurd h (by simp)
            · rename_i c rem' heq
              split at h
              · simp only [Option.some.injEq, Prod.mk.injEq] at h
                obtain ⟨-, -, rfl⟩ := h
                have : (((r0.dropWhile isPySpace).dropWhile isNumChar).dropWhile
                    isPySpace).dropWhile isNumChar = c :: rem' := heq
                have hlen := congrArg List.length this
                simp only [List.length_cons] at hlen
                omega
              · exact absurd h (by simp)

/-! ## The coordinate scan -/

theorem findXYF_irrel : ∀ f1 f2 : ℕ, ∀ s : List Char,
    s.length ≤ f1 → s.length ≤ f2 → findXYF f1 s = findXYF f2 s := by
  intro f1
  induction f1 with
  | zero =>
    intro f2 s h1 _
    have : s = [] := List.length_eq_zero.mp (by omega)
    subst this
    cases f2 <;> rfl
  | succ f ih =>
    intro f2 s h1 h2
    cases s with
    | nil => cases f2 <;> rfl
    | cons c cs =>
      cases f2 with
      | zero => simp at h2
      | succ f2' =>
        simp only [findXYF]
        cases hm : xyMatchAt (c :: cs) with
        | none =>
          exact ih f2' cs (by simp at h1; omega) (by simp at h2; omega)
        | some t =>
          obtain ⟨g1, g2, rem⟩ := t
          have hlen := xyMatchAt_length _ _ _ _ hm
          simp only [List.length_cons] at hlen
          exact congrArg _ (ih f2' rem (by simp at h1; omega) (by simp at h2; omega))

theorem findXY_cons_none (c : Char) (cs : List Char) (h : xyMatchAt (c :: cs) = none) :
    findXY (c :: cs) = findXY cs := by
  show findXYF (cs.length + 1) (c :: cs) = _
  simp only [findXYF, h]
  rfl

theorem findXY_cons_some (c : Char) (cs g1 g2 rem : List Char)
    (h : xyMatchAt (c :: cs) = some (g1, g2, rem)) :
    findXY (c :: cs) = (g1, g2) :: findXY rem := by
  have hlen := xyMatchAt_length _ _ _ _ h
  simp only [List.length_cons] at hlen
  show findXYF (cs.length + 1) (c :: cs) = _
  simp only [findXYF, h]
  exact congrArg _ (findXYF_irrel cs.length rem.length rem (by omega) le_rfl)

theorem findXY_skip (l s : List Char) (hl : ∀ c ∈ l, c ≠ '(') :
    findXY (l ++ s) = findXY s := by
  induction l with
  | nil => simp
  | cons c l ih =>
    have hc : c ≠ '(' := hl c (by simp)
    rw [List.cons_append, findXY_cons_none _ _ (xyMatchAt_none_of_ne c _ hc)]
    exact ih (fun x hx => hl x (by simp [hx]))

theorem findXY_line (A B rest : List Char)
    (hA : A ≠ []) (hAn : ∀ c ∈ A, isNumChar c = true)
    (hB : B ≠ []) (hBn : ∀ c ∈ B, isNumChar c = true) :
    findXY (chars "(xy " ++ A ++ ' ' :: B ++ ')' :: rest) = (A, B) :: findXY rest := by
  exact findXY_cons_some '(' ('x' :: 'y' :: ' ' :: (A ++ ' ' :: B ++ ')' :: rest))
    A B rest (xyMatchAt_exact A B rest hA hAn hB hBn)

/-! ## Parsing a formatted point list -/

theorem findXY_format (indent : List Char) (hind : ∀ c ∈ indent, c ≠ '(') :
    ∀ qs : List (ℚ × ℚ),
    findXY (format_points qs indent) =
      qs.map (fun p => (fmtFixed 6 p.1, fmtFixed 6 p.2)) := by
  intro qs
  induction qs with
  | nil => rfl
  | cons p qs ih =>
    cases qs with
    | nil =>
      show findXY (xyLine indent p) = [(fmtFixed 6 p.1, fmtFixed 6 p.2)]
      have hsh : xyLine indent p =
          indent ++ (chars "(xy " ++ fmtFixed 6 p.1 ++ ' ' :: fmtFixed 6 p.2 ++
            ')' :: ([] : List Char)) := by
        rw [xyLine]
        simp
      rw [hsh, findXY_skip indent _ hind,
        findXY_line _ _ _ (fmtFixed_ne_nil _ _) (fmtFixed_all_num _ _)
          (fmtFixed_ne_nil _ _) (fmtFixed_all_num _ _)]
      rfl
    | cons p2 qs2 =>
      show findXY (xyLine indent p ++ '\n' :: joinNL ((p2 :: qs2).map (xyLine indent))) = _
      have hsh : xyLine indent p ++ '\n' :: joinNL ((p2 :: qs2).map (xyLine indent)) =
          indent ++ (chars "(xy " ++ fmtFixed 6 p.1 ++ ' ' :: fmtFixed 6 p.2 ++
            ')' :: ('\n' :: joinNL ((p2 :: qs2).map (xyLine indent)))) := by
        rw [xyLine]
        simp
      rw [hsh, findXY_skip indent _ hind,
        findXY_line _ _ _ (fmtFixed_ne_nil _ _) (fmtFixed_all_num _ _)
          (fmtFixed_ne_nil _ _) (fmtFixed_all_num _ _),
        findXY_cons_none _ _ (xyMatchAt_none_of_ne '\n' _ (by decide))]
      rw [show findXY (joinNL ((p2 :: qs2).map (xyLine indent))) =
          findXY (format_points (p2 :: qs2) indent) from rfl, ih]
      rfl

theorem parsePairs_fmt (qs : List (ℚ × ℚ)) :
    parsePairs (qs.map (fun p => (fmtFixed 6 p.1, fmtFixed 6 p.2))) =
      some (qs.map (fun p => (roundTo 6 p.1, roundTo 6 p.2))) := by
  induction qs with
  | nil => rfl
  | cons p qs ih =>
    simp only [List.map_cons, parsePairs, pyFloat_fmtFixed, ih]

theorem parse_format (qs : List (ℚ × ℚ)) :
    parse_points (format_points qs defaultIndent) =
      some (qs.map (fun p => (roundTo 6 p.1, roundTo 6 p.2))) := by
  rw [parse_points, findXY_format defaultIndent (by decide) qs, parsePairs_fmt]

/-! ## The re.sub scan loop -/

theorem isEmpty_false_length (l : List Char) (h : l.isEmpty = false) : 1 ≤ l.length := by
  cases l with
  | nil => simp at h
  | cons c cs => simp

theorem subF_irrel (step : List Char → Option (Option (List Char) × List Char))
    (hstep : ∀ s ro rem, step s = some (ro, rem) → rem.length < s.length) :
    ∀ f1 f2 : ℕ, ∀ s : List Char,
    s.length ≤ f1 → s.length ≤ f2 → subF step f1 s = subF step f2 s := by
  intro f1
  induction f1 with
  | zero =>
    intro f2 s h1 _
    have : s = [] := List.length_eq_zero.mp (by omega)
    subst this
    cases f2 <;> rfl
  | succ f ih =>
    intro f2 s h1 h2
    cases s with
    | nil => cases f2 <;> rfl
    | cons c cs =>
      cases f2 with
      | zero => simp at h2
      | succ f2' =>
        simp only [List.length_cons] at h1 h2
        cases hm : step (c :: cs) with
        | none =>
          simp only [subF, hm]
          rw [ih f2' cs (by omega) (by omega)]
        | some t =>
          obtain ⟨ro, rem⟩ := t
          have hlen := hstep _ _ _ hm
          simp only [List.length_cons] at hlen
          simp only [subF, hm]
          rw [ih f2' rem (by omega) (by omega)]

theorem applySub_cons_none (step : List Char → Option (Option (List Char) × List Char))
    (c : Char) (cs : List Char) (h : step (c :: cs) = none) :
    applySub step (c :: cs) = (applySub step cs).map (fun t => c :: t) := by
  show subF step (cs.length + 1) (c :: cs) = _
  simp only [subF, h]
  cases hs : subF step cs.length cs <;> simp [applySub, hs]

theorem applySub_cons_match (step : List Char → Option (Option (List Char) × List Char))
    (hstep : ∀ s ro rem, step s = some (ro, rem) → rem.length < s.length)
    (c : Char) (cs r rem : List Char) (h : step (c :: cs) = some (some r, rem)) :
    applySub step (c :: cs) = (applySub step rem).map (fun t => r ++ t) := by
  have hlen := hstep _ _ _ h
  simp only [List.length_cons] at hlen
  show subF step (cs.length + 1) (c :: cs) = _
  simp only [subF, h]
  rw [subF_irrel step hstep cs.length rem.length rem (by omega) le_rfl]
  cases hs : subF step rem.length rem <;> simp [applySub, hs]

theorem applySub_cons_err (step : List Char → Option (Option (List Char) × List Char))
    (c : Char) (cs rem : List Char) (h : step (c :: cs) = some (none, rem)) :
    applySub step (c :: cs) = none := by
  show subF step (cs.length + 1) (c :: cs) = _
  simp only [subF, h]

theorem applySub_of_no_match (step : List Char → Option (Option (List Char) × List Char)) :
    ∀ s : List Char, hasMatch step s = false → applySub step s = some s := by
  intro s
  induction s with
  | nil => intro _; rfl
  | cons c cs ih =>
    intro h
    simp only [hasMatch, Bool.or_eq_false_iff] at h
    obtain ⟨h1, h2⟩ := h
    have hm : step (c :: cs) = none := by
      cases hmm : step (c :: cs)
      · rfl
      · rw [hmm] at h1; simp at h1
    rw [applySub_cons_none step c cs hm, ih h2]
    rfl

theorem subF_isSome_of_ok (step : List Char → Option (Option (List Char) × List Char))
    (hstep : ∀ s ro rem, step s = some (ro, rem) → rem.length < s.length) :
    ∀ fuel : ℕ, ∀ s : List Char,
    s.length ≤ fuel → okF step fuel s = true → (subF step fuel s).isSome = true := by
  intro fuel
  induction fuel with
  | zero =>
    intro s h1 _
    have : s = [] := List.length_eq_zero.mp (by omega)
    subst this
    rfl
  | succ f ih =>
    intro s h1 hok
    cases s with
    | nil => rfl
    | cons c cs =>
      simp only [List.length_cons] at h1
      cases hm : step (c :: cs) with
      | none =>
        simp only [okF, hm] at hok
        simp only [subF, hm]
        have h3 := ih cs (by omega) hok
        cases hs : subF step f cs
        · rw [hs] at h3; simp at h3
        · simp
      | some t =>
        obtain ⟨ro, rem⟩ := t
        simp only [okF, hm, Bool.and_eq_true] at hok
        obtain ⟨hro, hok2⟩ := hok
        have hlen := hstep _ _ _ hm
        simp only [List.length_cons] at hlen
        simp only [subF, hm]
        cases ro with
        | none => simp at hro
        | some r =>
          have h3 := ih rem (by omega) hok2
          cases hs : subF step f rem
          · rw [hs] at h3; simp at h3
          · simp

theorem applySub_isSome_of_ok (step : List Char → Option (Option (List Char) × List Char))
    (hstep : ∀ s ro rem, step s = some (ro, rem) → rem.length < s.length)
    (s : List Char) (h : okAll step s = true) : (applySub step s).isSome = true :=
  subF_isSome_of_ok step hstep s.length s le_rfl h

/-! ## Match lengths: every match consumes at least one character -/

theorem splitLastNL_lengths (w a b : List Char) (h : splitLastNL w = some (a, b)) :
    a.length + b.length = w.length ∧ 1 ≤ a.length := by
  simp only [splitLastNL] at h
  split at h
  · exact absurd h (by simp)
  · rename_i hne
    simp only [Option.some.injEq, Prod.mk.injEq] at h
    obtain ⟨rfl, rfl⟩ := h
    have hsum := congrArg List.length
      (List.takeWhile_append_dropWhile (fun c => !(c = '\n')) w.reverse)
    simp only [List.length_append, List.length_reverse] at hsum ⊢
    have hge := isEmpty_false_length _ (by
      cases hh : (w.reverse.dropWhile (fun c => !(c = '\n'))).isEmpty
      · rfl
      · exact absurd hh hne)
    omega

theorem strokeTail_length (s r : List Char) (h : strokeTail s = some r) :
    r.length ≤ s.length := by
  cases hd : s.dropWhile isPySpace with
  | nil => simp only [strokeTail, hd] at h; exact absurd h (by simp)
  | cons c r2 =>
    simp only [strokeTail, hd] at h
    split at h
    · have hlit := lit_length _ _ _ h
      have h1 := length_dropWhile_le isPySpace s
      have h2 := length_dropWhile_le isPySpace r2
      have h3 := congrArg List.length hd
      simp only [List.length_cons] at h3
      have h4 : (chars "(stroke").length = 7 := rfl
      omega
    · exact absurd h (by simp)

theorem lazySplit_length : ∀ s g rem : List Char,
    lazySplit s = some (g, rem) → rem.length ≤ s.length := by
  intro s
  induction s with
  | nil =>
    intro g rem h
    simp [lazySplit, strokeTail] at h
  | cons c cs ih =>
    intro g rem h
    cases hst : strokeTail (c :: cs) with
    | some r =>
      simp only [lazySplit, hst, Option.some.injEq, Prod.mk.injEq] at h
      obtain ⟨-, rfl⟩ := h
      exact strokeTail_length _ _ hst
    | none =>
      simp only [lazySplit, hst] at h
      cases hl : lazySplit cs with
      | none => rw [hl] at h; simp at h
      | some p =>
        obtain ⟨g', rem'⟩ := p
        rw [hl] at h
        simp only [Option.map_some', Option.some.injEq, Prod.mk.injEq] at h
        obtain ⟨-, rfl⟩ := h
        have := ih _ _ hl
        simp only [List.length_cons]
        omega

theorem polyMatchAt_length (s hh g2 rem : List Char)
    (h : polyMatchAt s = some (hh, g2, rem)) : rem.length < s.length := by
  cases h1 : lit polyHeader s with
  | none => simp only [polyMatchAt, h1] at h; exact absurd h (by simp)
  | some r1 =>
    simp only [polyMatchAt, h1] at h
    have hl1 : r1.length + 10 = s.length := by
      have := lit_length _ _ _ h1
      have hp : polyHeader.length = 10 := rfl
      omega
    split at h
    · exact absurd h (by simp)
    · rename_i hws
      have hws1 : 1 ≤ (r1.takeWhile isPySpace).length := by
        refine isEmpty_false_length _ ?_
        cases hh2 : (r1.takeWhile isPySpace).isEmpty
        · rfl
        · exact absurd hh2 hws
      have hpart1 := congrArg List.length
        (List.takeWhile_append_dropWhile isPySpace r1)
      simp only [List.length_append] at hpart1
      cases h2 : lit (chars "(pts") (r1.dropWhile isPySpace) with
      | none => simp only [h2] at h; exact absurd h (by simp)
      | some r3 =>
        simp only [h2] at h
        have hl2 : r3.length + 4 = (r1.dropWhile isPySpace).length := by
          have := lit_length _ _ _ h2
          have hp : (chars "(pts").length = 4 := rfl
          omega
        have hpart2 := congrArg List.length
          (List.takeWhile_append_dropWhile isPySpace r3)
        simp only [List.length_append] at hpart2
        cases h3 : splitLastNL (r3.takeWhile isPySpace) with
        | none => simp only [h3] at h; exact absurd h (by simp)
        | some ab =>
          obtain ⟨a, b⟩ := ab
          simp only [h3] at h
          have hsp := splitLastNL_lengths _ _ _ h3
          cases h4 : lazySplit (b ++ r3.dropWhile isPySpace) with
          | none => simp only [h4] at h; exact absurd h (by simp)
          | some gr =>
            obtain ⟨g2v, remv⟩ := gr
            simp only [h4, Option.some.injEq, Prod.mk.injEq] at h
            obtain ⟨-, -, rfl⟩ := h
            have hlz := lazySplit_length _ _ _ h4
            simp only [List.length_append] at hlz
            omega

theorem sizeMatchAt_length (s g1 g2 rem : List Char)
    (h : sizeMatchAt s = some (g1, g2, rem)) : rem.length < s.length := by
  cases h1 : lit (chars "(size ") s with
  | none => simp only [sizeMatchAt, h1] at h; exact absurd h (by simp)
  | some r1 =>
    simp only [sizeMatchAt, h1] at h
    have hl1 : r1.length + 6 = s.length := by
      have := lit_length _ _ _ h1
      have hp : (chars "(size ").length = 6 := rfl
      omega
    split at h
    · exact absurd h (by simp)
    · have hd1 := length_dropWhile_le isSizeChar r1
      split at h
      · exact absurd h (by simp)
      · rename_i c r3 heq
        have hlen3 : r3.length + 1 = (r1.dropWhile isSizeChar).length := by
          have := congrArg List.length heq
          simp only [List.length_cons] at this
          omega
        split at h
        · split at h
          · exact absurd h (by simp)
          · have hd2 := length_dropWhile_le isSizeChar r3
            split at h
            · exact absurd h (by simp)
            · rename_i c2 rem' heq2
              have hlen4 : rem'.length + 1 = (r3.dropWhile isSizeChar).length := by
                have := congrArg List.length heq2
                simp only [List.length_cons] at this
                omega
              split at h
              · simp only [Option.some.injEq, Prod.mk.injEq] at h
                obtain ⟨-, -, rfl⟩ := h
                omega
              · exact absurd h (by simp)
        · exact absurd h (by simp)

theorem thicknessMatchAt_length (s g1 rem : List Char)
    (h : thicknessMatchAt s = some (g1, rem)) : rem.length < s.length := by
  cases h1 : lit (chars "(thickness ") s with
  | none => simp only [thicknessMatchAt, h1] at h; exact absurd h (by simp)
  | some r1 =>
    simp only [thicknessMatchAt, h1] at h
    have hl1 : r1.length + 11 = s.length := by
      have := lit_length _ _ _ h1
      have hp : (chars "(thickness ").length = 11 := rfl
      omega
    split at h
    · exact absurd h (by simp)
    · have hd1 := length_dropWhile_le isSizeChar r1
      split at h
      · exact absurd h (by simp)
      · rename_i c rem' heq
        have hlen3 : rem'.length + 1 = (r1.dropWhile isSizeChar).length := by
          have := congrArg List.length heq
          simp only [List.length_cons] at this
          omega
        split at h
        · simp only [Option.some.injEq, Prod.mk.injEq] at h
          obtain ⟨-, rfl⟩ := h
          omega
        · exact absurd h (by simp)

theorem polyStep_shrinks (f : ℚ) :
    ∀ s ro rem, polyStep f s = some (ro, rem) → rem.length < s.length := by
  intro s ro rem h
  cases hm : polyMatchAt s with
  | none => simp only [polyStep, hm] at h; exact absurd h (by simp)
  | some t =>
    obtain ⟨hh, g2, rv⟩ := t
    simp only [polyStep, hm, Option.some.injEq, Prod.mk.injEq] at h
    obtain ⟨-, rfl⟩ := h
    exact polyMatchAt_length _ _ _ _ hm

theorem sizeStep_shrinks (f : ℚ) :
    ∀ s ro rem, sizeStep f s = some (ro, rem) → rem.length < s.length := by
  intro s ro rem h
  cases hm : sizeMatchAt s with
  | none => simp only [sizeStep, hm] at h; exact absurd h (by simp)
  | some t =>
    obtain ⟨g1, g2, rv⟩ := t
    simp only [sizeStep, hm, Option.some.injEq, Prod.mk.injEq] at h
    obtain ⟨-, rfl⟩ := h
    exact sizeMatchAt_length _ _ _ _ hm

theorem thicknessStep_shrinks (f : ℚ) :
    ∀ s ro rem, thicknessStep f s = some (ro, rem) → rem.length < s.length := by
  intro s ro rem h
  cases hm : thicknessMatchAt s with
  | none => simp only [thicknessStep, hm] at h; exact absurd h (by simp)
  | some t =>
    obtain ⟨g1, rv⟩ := t
    simp only [thicknessStep, hm, Option.some.injEq, Prod.mk.injEq] at h
    obtain ⟨-, rfl⟩ := h
    exact thicknessMatchAt_length _ _ _ hm

/-! ## Exact matches of the size and thickness patterns -/

theorem lit_cons (p : Char) (ps : List Char) (c : Char) (cs : List Char) :
    lit (p :: ps) (c :: cs) = if c = p then lit ps cs else none := rfl

theorem sizeMatchAt_exact (g1 g2 rest : List Char)
    (h1 : g1 ≠ []) (h1s : ∀ c ∈ g1, isSizeChar c = true)
    (h2 : g2 ≠ []) (h2s : ∀ c ∈ g2, isSizeChar c = true) :
    sizeMatchAt (chars "(size " ++ g1 ++ ' ' :: g2 ++ ')' :: rest) = some (g1, g2, rest) := by
  obtain ⟨a, A', rfl⟩ := List.exists_cons_of_ne_nil h1
  obtain ⟨b, B', rfl⟩ := List.exists_cons_of_ne_nil h2
  have hA1 : ∀ x ∈ A', isSizeChar x = true := fun x hx => h1s x (by simp [hx])
  have hB1 : ∀ x ∈ B', isSizeChar x = true := fun x hx => h2s x (by simp [hx])
  have ha : isSizeChar a = true := h1s a (by simp)
  have hb : isSizeChar b = true := h2s b (by simp)
  have twA := takeWhile_append_not isSizeChar A' ' ' (b :: (B' ++ ')' :: rest)) hA1 (by decide)
  have twB := takeWhile_append_not isSizeChar B' ')' rest hB1 (by decide)
  have hsh : chars "(size " ++ (a :: A') ++ ' ' :: (b :: B') ++ ')' :: rest =
      chars "(size " ++ (a :: (A' ++ ' ' :: b :: (B' ++ ')' :: rest))) := by
    simp
  have e1 : (a :: (A' ++ ' ' :: b :: (B' ++ ')' :: rest))).takeWhile isSizeChar
      = a :: A' := by
    rw [takeWhile_cons_pos _ _ _ ha, twA.1]
  have e2 : (a :: (A' ++ ' ' :: b :: (B' ++ ')' :: rest))).dropWhile isSizeChar
      = ' ' :: b :: (B' ++ ')' :: rest) := by
    rw [dropWhile_cons_pos _ _ _ ha, twA.2]
  have e3 : (b :: (B' ++ ')' :: rest)).takeWhile isSizeChar = b :: B' := by
    rw [takeWhile_cons_pos _ _ _ hb, twB.1]
  have e4 : (b :: (B' ++ ')' :: rest)).dropWhile isSizeChar = ')' :: rest := by
    rw [dropWhile_cons_pos _ _ _ hb, twB.2]
  rw [hsh, sizeMatchAt, lit_self_append]
  simp only [e1, e2, e3, e4]
  simp

theorem thicknessMatchAt_exact (g1 rest : List Char)
    (h1 : g1 ≠ []) (h1s : ∀ c ∈ g1, isSizeChar c = true) :
    thicknessMatchAt (chars "(thickness " ++ g1 ++ ')' :: rest) = some (g1, rest) := by
  obtain ⟨a, A', rfl⟩ := List.exists_cons_of_ne_nil h1
  have hA1 : ∀ x ∈ A', isSizeChar x = true := fun x hx => h1s x (by simp [hx])
  have ha : isSizeChar a = true := h1s a (by simp)
  have twA := takeWhile_append_not isSizeChar A' ')' rest hA1 (by decide)
  have hsh : chars "(thickness " ++ (a :: A') ++ ')' :: rest =
      chars "(thickness " ++ (a :: (A' ++ ')' :: rest)) := by
    simp
  have e1 : (a :: (A' ++ ')' :: rest)).takeWhile isSizeChar = a :: A' := by
    rw [takeWhile_cons_pos _ _ _ ha, twA.1]
  have e2 : (a :: (A' ++ ')' :: rest)).dropWhile isSizeChar = ')' :: rest := by
    rw [dropWhile_cons_pos _ _ _ ha, twA.2]
  rw [hsh, thicknessMatchAt, lit_self_append]
  simp only [e1, e2]
  simp

/-! ## Splice equations of the three passes -/

theorem sizeSub_field (g1 g2 rest : List Char) (f W H : ℚ)
    (h1 : g1 ≠ []) (h1s : ∀ c ∈ g1, isSizeChar c = true) (hW : pyFloat g1 = some W)
    (h2 : g2 ≠ []) (h2s : ∀ c ∈ g2, isSizeChar c = true) (hH : pyFloat g2 = some H) :
    sizeSub (chars "(size " ++ g1 ++ ' ' :: g2 ++ ')' :: rest) f =
      (sizeSub rest f).map (fun t =>
        chars "(size " ++ fmtFixed 3 (W * f) ++ ' ' :: fmtFixed 3 (H * f) ++ ')' :: t) := by
  have hm := sizeMatchAt_exact g1 g2 rest h1 h1s h2 h2s
  have hstep : sizeStep f (chars "(size " ++ g1 ++ ' ' :: g2 ++ ')' :: rest) =
      some (some (chars "(size " ++ fmtFixed 3 (W * f) ++ ' ' :: fmtFixed 3 (H * f) ++
        [')']), rest) := by
    simp only [sizeStep, hm, hW, hH]
  have happ := applySub_cons_match (sizeStep f) (sizeStep_shrinks f) '('
    ('s' :: 'i' :: 'z' :: 'e' :: ' ' :: (g1 ++ ' ' :: g2 ++ ')' :: rest))
    (chars "(size " ++ fmtFixed 3 (W * f) ++ ' ' :: fmtFixed 3 (H * f) ++ [')']) rest hstep
  rw [show sizeSub (chars "(size " ++ g1 ++ ' ' :: g2 ++ ')' :: rest) f =
    (applySub (sizeStep f) rest).map (fun t =>
      (chars "(size " ++ fmtFixed 3 (W * f) ++ ' ' :: fmtFixed 3 (H * f) ++ [')']) ++ t)
    from happ]
  cases hr : applySub (sizeStep f) rest with
  | none => rw [show sizeSub rest f = none from hr]; rfl
  | some t2 =>
    rw [show sizeSub rest f = some t2 from hr]
    simp

theorem thicknessSub_field (g1 rest : List Char) (f T : ℚ)
    (h1 : g1 ≠ []) (h1s : ∀ c ∈ g1, isSizeChar c = true) (hT : pyFloat g1 = some T) :
    thicknessSub (chars "(thickness " ++ g1 ++ ')' :: rest) f =
      (thicknessSub rest f).map (fun t =>
        chars "(thickness " ++ fmtFixed 3 (T * f) ++ ')' :: t) := by
  have hm := thicknessMatchAt_exact g1 rest h1 h1s
  have hstep : thicknessStep f (chars "(thickness " ++ g1 ++ ')' :: rest) =
      some (some (chars "(thickness " ++ fmtFixed 3 (T * f) ++ [')']), rest) := by
    simp only [thicknessStep, hm, hT]
  have happ := applySub_cons_match (thicknessStep f) (thicknessStep_shrinks f) '('
    ('t' :: 'h' :: 'i' :: 'c' :: 'k' :: 'n' :: 'e' :: 's' :: 's' :: ' ' ::
      (g1 ++ ')' :: rest))
    (chars "(thickness " ++ fmtFixed 3 (T * f) ++ [')']) rest hstep
  rw [show thicknessSub (chars "(thickness " ++ g1 ++ ')' :: rest) f =
    (applySub (thicknessStep f) rest).map (fun t =>
      (chars "(thickness " ++ fmtFixed 3 (T * f) ++ [')']) ++ t) from happ]
  cases hr : applySub (thicknessStep f) rest with
  | none => rw [show thicknessSub rest f = none from hr]; rfl
  | some t2 =>
    rw [show thicknessSub rest f = some t2 from hr]
    simp

theorem polySub_splice (s hh g2 rem : List Char) (f : ℚ) (ps : List (ℚ × ℚ))
    (hm : polyMatchAt s = some (hh, g2, rem)) (hp : parse_points g2 = some ps) :
    polySub s f = (polySub rem f).map (fun t =>
      hh ++ format_points (scale_points ps f) defaultIndent ++
        chars "\n    ) (stroke" ++ t) := by
  cases s with
  | nil =>
    rw [show polyMatchAt [] = none from rfl] at hm
    exact absurd hm (by simp)
  | cons c cs =>
    have hstep : polyStep f (c :: cs) = some (some (hh ++
        format_points (scale_points ps f) defaultIndent ++
        chars "\n    ) (stroke"), rem) := by
      simp only [polyStep, hm, hp]
      rfl
    have happ := applySub_cons_match (polyStep f) (polyStep_shrinks f) c cs
      (hh ++ format_points (scale_points ps f) defaultIndent ++
        chars "\n    ) (stroke") rem hstep
    rw [show polySub (c :: cs) f = (applySub (polyStep f) rem).map (fun t =>
      (hh ++ format_points (scale_points ps f) defaultIndent ++
        chars "\n    ) (stroke") ++ t) from happ]
    cases hr : applySub (polyStep f) rem with
    | none => rw [show polySub rem f = none from hr]
    | some t2 =>
      rw [show polySub rem f = some t2 from hr]

theorem polySub_pass (c : Char) (cs : List Char) (f : ℚ)
    (h : polyMatchAt (c :: cs) = none) :
    polySub (c :: cs) f = (polySub cs f).map (fun t => c :: t) := by
  have hstep : polyStep f (c :: cs) = none := by
    simp only [polyStep, h]
  exact applySub_cons_none (polyStep f) c cs hstep

/-! ## No size or thickness match starts inside emitted polygon text -/

theorem hasMatch_false_of_clean (step : List Char → Option (Option (List Char) × List Char)) :
    ∀ s : List Char, CleanFor step s → hasMatch step s = false := by
  intro s
  induction s with
  | nil => intro _; rfl
  | cons c cs ih =>
    intro hclean
    simp only [hasMatch, Bool.or_eq_false_iff]
    constructor
    · have h0 := hclean [] c cs rfl []
      simp only [List.append_nil] at h0
      rw [h0]
      rfl
    · exact ih (fun pre c' suf h t => hclean (c :: pre) c' suf (by rw [h]; rfl) t)

theorem cleanFor_nil (step : List Char → Option (Option (List Char) × List Char)) :
    CleanFor step [] := by
  intro pre c suf heq t
  cases pre <;> simp at heq

theorem cleanFor_cons (step : List Char → Option (Option (List Char) × List Char))
    (c0 : Char) (s0 : List Char)
    (hhead : ∀ t, step (c0 :: (s0 ++ t)) = none)
    (htail : CleanFor step s0) : CleanFor step (c0 :: s0) := by
  intro pre c suf heq t
  cases pre with
  | nil =>
    simp only [List.nil_append, List.cons.injEq] at heq
    obtain ⟨rfl, rfl⟩ := heq
    exact hhead t
  | cons p pre' =>
    simp only [List.cons_append, List.cons.injEq] at heq
    obtain ⟨rfl, heq⟩ := heq
    exact htail pre' c suf heq t

theorem cleanFor_append (step : List Char → Option (Option (List Char) × List Char))
    (s2 : List Char) (h2 : CleanFor step s2) :
    ∀ s1 : List Char, CleanFor step s1 → CleanFor step (s1 ++ s2) := by
  intro s1
  induction s1 with
  | nil => intro _; simpa using h2
  | cons a s1' ih =>
    intro h1
    have h1' : CleanFor step s1' := by
      intro pre c suf heq t
      exact h1 (a :: pre) c suf (by rw [heq]; rfl) t
    have hh : ∀ t, step (a :: ((s1' ++ s2) ++ t)) = none := by
      intro t
      have h3 := h1 [] a s1' rfl (s2 ++ t)
      rw [List.append_assoc]
      simpa using h3
    exact cleanFor_cons step a (s1' ++ s2) hh (ih h1')

theorem cleanFor_no_lpar (step : List Char → Option (Option (List Char) × List Char))
    (hstep : ∀ c cs, c ≠ '(' → step (c :: cs) = none)
    (s : List Char) (hs : ∀ c ∈ s, c ≠ '(') : CleanFor step s := by
  intro pre c suf heq t
  exact hstep c _ (hs c (by rw [heq]; simp))

theorem sizeStep_none_of_ne (f : ℚ) (c : Char) (cs : List Char) (h : c ≠ '(') :
    sizeStep f (c :: cs) = none := by
  have hl : lit (chars "(size ") (c :: cs) = none := by
    rw [show chars "(size " = '(' :: chars "size " from rfl, lit_cons, if_neg h]
  simp only [sizeStep, sizeMatchAt, hl]

theorem thicknessStep_none_of_ne (f : ℚ) (c : Char) (cs : List Char) (h : c ≠ '(') :
    thicknessStep f (c :: cs) = none := by
  have hl : lit (chars "(thickness ") (c :: cs) = none := by
    rw [show chars "(thickness " = '(' :: chars "thickness " from rfl, lit_cons, if_neg h]
  simp only [thicknessStep, thicknessMatchAt, hl]

theorem sizeStep_none_xy (f : ℚ) (u : List Char) : sizeStep f ('(' :: 'x' :: u) = none := by
  have hl : lit (chars "(size ") ('(' :: 'x' :: u) = none := by
    rw [show chars "(size " = '(' :: 's' :: chars "ize " from rfl, lit_cons, if_pos rfl,
      lit_cons, if_neg (by decide)]
  simp only [sizeStep, sizeMatchAt, hl]

theorem sizeStep_none_stroke (f : ℚ) (u : List Char) :
    sizeStep f ('(' :: 's' :: 't' :: u) = none := by
  have hl : lit (chars "(size ") ('(' :: 's' :: 't' :: u) = none := by
    rw [show chars "(size " = '(' :: 's' :: 'i' :: chars "ze " from rfl, lit_cons,
      if_pos rfl, lit_cons, if_pos rfl, lit_cons, if_neg (by decide)]
  simp only [sizeStep, sizeMatchAt, hl]

theorem thicknessStep_none_xy (f : ℚ) (u : List Char) :
    thicknessStep f ('(' :: 'x' :: u) = none := by
  have hl : lit (chars "(thickness ") ('(' :: 'x' :: u) = none := by
    rw [show chars "(thickness " = '(' :: 't' :: chars "hickness " from rfl, lit_cons,
      if_pos rfl, lit_cons, if_neg (by decide)]
  simp only [thicknessStep, thicknessMatchAt, hl]

theorem thicknessStep_none_stroke (f : ℚ) (u : List Char) :
    thicknessStep f ('(' :: 's' :: u) = none := by
  have hl : lit (chars "(thickness ") ('(' :: 's' :: u) = none := by
    rw [show chars "(thickness " = '(' :: 't' :: chars "hickness " from rfl, lit_cons,
      if_pos rfl, lit_cons, if_neg (by decide)]
  simp only [thicknessStep, thicknessMatchAt, hl]

theorem clean_xyhead (step : List Char → Option (Option (List Char) × List Char))
    (hxy : ∀ u, step ('(' :: 'x' :: u) = none)
    (hnl : ∀ c cs, c ≠ '(' → step (c :: cs) = none) :
    CleanFor step (chars "(xy ") := by
  refine cleanFor_cons step '(' (chars "xy ") (fun t => ?_) ?_
  · exact hxy ('y' :: ' ' :: t)
  · exact cleanFor_no_lpar step hnl _ (by decide)

theorem clean_trailer (step : List Char → Option (Option (List Char) × List Char))
    (hstroke : ∀ u, step ('(' :: 's' :: 't' :: 'r' :: 'o' :: 'k' :: 'e' :: u) = none)
    (hnl : ∀ c cs, c ≠ '(' → step (c :: cs) = none) :
    CleanFor step (chars "\n    ) (stroke") := by
  have h1 : CleanFor step (chars "\n    ) ") := cleanFor_no_lpar step hnl _ (by decide)
  have h2 : CleanFor step (chars "(stroke") := by
    refine cleanFor_cons step '(' (chars "stroke") (fun t => hstroke t) ?_
    exact cleanFor_no_lpar step hnl _ (by decide)
  exact cleanFor_append step (chars "(stroke") h2 (chars "\n    ) ") h1

theorem clean_fmt (step : List Char → Option (Option (List Char) × List Char))
    (hnl : ∀ c cs, c ≠ '(' → step (c :: cs) = none) (k : ℕ) (q : ℚ) :
    CleanFor step (fmtFixed k q) :=
  cleanFor_no_lpar step hnl _ (fun c hc => numChar_ne_lpar c (fmtFixed_all_num k q c hc))

theorem clean_xyLine (step : List Char → Option (Option (List Char) × List Char))
    (hxy : ∀ u, step ('(' :: 'x' :: u) = none)
    (hnl : ∀ c cs, c ≠ '(' → step (c :: cs) = none) (p : ℚ × ℚ) :
    CleanFor step (xyLine defaultIndent p) := by
  have hshape : xyLine defaultIndent p = defaultIndent ++ (chars "(xy " ++
      (fmtFixed 6 p.1 ++ ([' '] ++ (fmtFixed 6 p.2 ++ [')'])))) := by
    rw [xyLine]
    simp
  rw [hshape]
  have c5 : CleanFor step [')'] := cleanFor_no_lpar step hnl _ (by decide)
  have c4 : CleanFor step (fmtFixed 6 p.2 ++ [')']) :=
    cleanFor_append step _ c5 _ (clean_fmt step hnl 6 p.2)
  have c3 : CleanFor step ([' '] ++ (fmtFixed 6 p.2 ++ [')'])) :=
    cleanFor_append step _ c4 _ (cleanFor_no_lpar step hnl _ (by decide))
  have c2 : CleanFor step (fmtFixed 6 p.1 ++ ([' '] ++ (fmtFixed 6 p.2 ++ [')']))) :=
    cleanFor_append step _ c3 _ (clean_fmt step hnl 6 p.1)
  have c1 : CleanFor step (chars "(xy " ++
      (fmtFixed 6 p.1 ++ ([' '] ++ (fmtFixed 6 p.2 ++ [')'])))) :=
    cleanFor_append step _ c2 _ (clean_xyhead step hxy hnl)
  exact cleanFor_append step _ c1 _ (cleanFor_no_lpar step hnl _ (by decide))

theorem clean_format (step : List Char → Option (Option (List Char) × List Char))
    (hxy : ∀ u, step ('(' :: 'x' :: u) = none)
    (hnl : ∀ c cs, c ≠ '(' → step (c :: cs) = none) :
    ∀ ps : List (ℚ × ℚ), CleanFor step (format_points ps defaultIndent) := by
  intro ps
  induction ps with
  | nil => exact cleanFor_nil step
  | cons p ps ih =>
    cases ps with
    | nil => exact clean_xyLine step hxy hnl p
    | cons p2 ps2 =>
      show CleanFor step (xyLine defaultIndent p ++
        '\n' :: joinNL ((p2 :: ps2).map (xyLine defaultIndent)))
      have hin : CleanFor step (['\n'] ++ format_points (p2 :: ps2) defaultIndent) :=
        cleanFor_append step _ ih _ (cleanFor_no_lpar step hnl _ (by decide))
      exact cleanFor_append step _ hin _ (clean_xyLine step hxy hnl p)

theorem clean_emitted (step : List Char → Option (Option (List Char) × List Char))
    (hxy : ∀ u, step ('(' :: 'x' :: u) = none)
    (hstroke : ∀ u, step ('(' :: 's' :: 't' :: 'r' :: 'o' :: 'k' :: 'e' :: u) = none)
    (hnl : ∀ c cs, c ≠ '(' → step (c :: cs) = none) (ps : List (ℚ × ℚ)) :
    CleanFor step (format_points ps defaultIndent ++ chars "\n    ) (stroke") :=
  cleanFor_append step _ (clean_trailer step hstroke hnl) _ (clean_format step hxy hnl ps)

theorem emitted_fixed_sizeSub (ps : List (ℚ × ℚ)) (g : ℚ) :
    sizeSub (format_points ps defaultIndent ++ chars "\n    ) (stroke") g =
      some (format_points ps defaultIndent ++ chars "\n    ) (stroke") :=
  applySub_of_no_match (sizeStep g) _ (hasMatch_false_of_clean (sizeStep g) _
    (clean_emitted (sizeStep g) (fun u => sizeStep_none_xy g u)
      (fun u => sizeStep_none_stroke g ('r' :: 'o' :: 'k' :: 'e' :: u))
      (fun c cs h => sizeStep_none_of_ne g c cs h) ps))

theorem emitted_fixed_thicknessSub (ps : List (ℚ × ℚ)) (g : ℚ) :
    thicknessSub (format_points ps defaultIndent ++ chars "\n    ) (stroke") g =
      some (format_points ps defaultIndent ++ chars "\n    ) (stroke") :=
  applySub_of_no_match (thicknessStep g) _ (hasMatch_false_of_clean (thicknessStep g) _
    (clean_emitted (thicknessStep g) (fun u => thicknessStep_none_xy g u)
      (fun u => thicknessStep_none_stroke g ('t' :: 'r' :: 'o' :: 'k' :: 'e' :: u))
      (fun c cs h => thicknessStep_none_of_ne g c cs h) ps))

/-! ## Claims -/

theorem digit_ne_dot (c : Char) (h : c.isDigit = true) : c ≠ '.' := by
  rintro rfl; exact absurd h (by decide)

/-- C1 (counterexample): on the document `"  (fp_poly (pts\n(xy 1 1)) (stroke"`
the polygon pattern captures header `"  (fp_poly (pts\n"`, point list
`"(xy 1 1)"` and the trailing text `") (stroke"`, but the output of
`scale_footprint` does not splice the captured trailing text back: it
replaces it with the canonical `"\n    ) (stroke"`, so bytes outside the
point list change. -/
theorem claim1_counterexample :
    polyMatchAt (chars "  (fp_poly (pts\n(xy 1 1)) (stroke") =
      some (chars "  (fp_poly (pts\n", chars "(xy 1 1)", []) ∧
    scale_footprint (chars "  (fp_poly (pts\n(xy 1 1)) (stroke") 2 =
      some (chars "  (fp_poly (pts\n      (xy 2.000000 2.000000)\n    ) (stroke") ∧
    chars "  (fp_poly (pts\n      (xy 2.000000 2.000000)\n    ) (stroke" ≠
      chars "  (fp_poly (pts\n" ++
        format_points (scale_points [(1, 1)] 2) defaultIndent ++ chars ") (stroke" :=
  ⟨by with_unfolding_all decide, by with_unfolding_all decide,
   by with_unfolding_all decide⟩

/-- C1 (amended): for every polygon-pattern match the rewrite splices the
reformatted point block back preserving exactly the captured header text,
but replaces the captured trailing closing-marker/stroke-marker text by
the fixed canonical text `"\n    ) (stroke"`; at every position where the
pattern does not match, the polygon pass copies the byte unchanged. -/
theorem claim1_amended :
    (∀ s hh g2 rem : List Char, ∀ f : ℚ, ∀ ps : List (ℚ × ℚ),
      polyMatchAt s = some (hh, g2, rem) → parse_points g2 = some ps →
      polySub s f = (polySub rem f).map (fun t =>
        hh ++ format_points (scale_points ps f) defaultIndent ++
          chars "\n    ) (stroke" ++ t)) ∧
    (∀ c : Char, ∀ cs : List Char, ∀ f : ℚ, polyMatchAt (c :: cs) = none →
      polySub (c :: cs) f = (polySub cs f).map (fun t => c :: t)) :=
  ⟨fun s hh g2 rem f ps hm hp => polySub_splice s hh g2 rem f ps hm hp,
   fun c cs f h => polySub_pass c cs f h⟩

theorem claim1_witness :
    polySub (chars "  (fp_poly (pts\n(xy 1 1)) (stroke") 2 =
      (polySub [] 2).map (fun t =>
        chars "  (fp_poly (pts\n" ++
          format_points (scale_points [(1, 1)] 2) defaultIndent ++
          chars "\n    ) (stroke" ++ t) :=
  claim1_amended.1 (chars "  (fp_poly (pts\n(xy 1 1)) (stroke")
    (chars "  (fp_poly (pts\n") (chars "(xy 1 1)") [] 2 [(1, 1)]
    (by with_unfolding_all decide) (by with_unfolding_all decide)

/-- C2 (counterexample): `scale_footprint` is not total: on a document
whose polygon block contains the malformed numeric-looking text
`(xy . .)`, the captured groups `"."` fail `float` conversion and the
`ValueError` propagates out of the rewriter (`none`). -/
theorem claim2_counterexample :
    scale_footprint (chars "  (fp_poly (pts\n      (xy . .)\n    ) (stroke") 2 = none := by
  with_unfolding_all decide

/-- C2 (amended): each of the three passes of `scale_footprint` returns a
result whenever every numeric group captured by its pattern parses as a
float, and `scale_footprint` returns a result whenever this holds for
the polygon pass on the input, the size pass on the polygon pass's
output, and the thickness pass on the size pass's output; totality over
all text fails only through a `ValueError` from a captured
numeric-looking group such as `"."`. -/
theorem claim2_amended :
    (∀ d : List Char, ∀ f : ℚ, okAll (polyStep f) d = true →
      (polySub d f).isSome = true) ∧
    (∀ d : List Char, ∀ f : ℚ, okAll (sizeStep f) d = true →
      (sizeSub d f).isSome = true) ∧
    (∀ d : List Char, ∀ f : ℚ, okAll (thicknessStep f) d = true →
      (thicknessSub d f).isSome = true) ∧
    (∀ d s1 s2 : List Char, ∀ f : ℚ, okAll (polyStep f) d = true →
      polySub d f = some s1 → okAll (sizeStep f) s1 = true →
      sizeSub s1 f = some s2 → okAll (thicknessStep f) s2 = true →
      (scale_footprint d f).isSome = true) := by
  refine ⟨?_, ?_, ?_, ?_⟩
  · exact fun d f h => applySub_isSome_of_ok _ (polyStep_shrinks f) d h
  · exact fun d f h => applySub_isSome_of_ok _ (sizeStep_shrinks f) d h
  · exact fun d f h => applySub_isSome_of_ok _ (thicknessStep_shrinks f) d h
  · intro d s1 s2 f _ e1 _ e2 h3
    have ht := applySub_isSome_of_ok _ (thicknessStep_shrinks f) s2 h3
    simp only [scale_footprint, e1, e2]
    exact ht

theorem claim2_witness :
    (scale_footprint (chars "(size 1 2) (thickness 0.3)") 2).isSome = true :=
  claim2_amended.2.2.2 (chars "(size 1 2) (thickness 0.3)")
    (chars "(size 1 2) (thickness 0.3)")
    (chars "(size 2.000 4.000) (thickness 0.3)") 2
    (by with_unfolding_all decide) (by with_unfolding_all decide)
    (by with_unfolding_all decide) (by with_unfolding_all decide)
    (by with_unfolding_all decide)

/-- C3: a document in which none of the three patterns (polygon point
list, size, thickness) matches anywhere is passed through byte for byte:
`scale_footprint` returns it unchanged, for any factor. -/
theorem claim3 (d : List Char) (F : ℚ)
    (h1 : hasMatch (polyStep F) d = false)
    (h2 : hasMatch (sizeStep F) d = false)
    (h3 : hasMatch (thicknessStep F) d = false) :
    scale_footprint d F = some d := by
  have e1 : polySub d F = some d := applySub_of_no_match _ _ h1
  have e2 : sizeSub d F = some d := applySub_of_no_match _ _ h2
  have e3 : thicknessSub d F = some d := applySub_of_no_match _ _ h3
  simp only [scale_footprint, e1, e2, e3]

theorem claim3_witness :
    scale_footprint (chars "hello world") 5 = some (chars "hello world") :=
  claim3 (chars "hello world") 5 (by with_unfolding_all decide)
    (by with_unfolding_all decide) (by with_unfolding_all decide)

/-- C4: scaling a coordinate multiplies both components by the factor and
`format_points` serializes it as `(xy X Y)` on one indented line with
exactly six digits after the (unique) decimal point of each component;
in particular (1.5, -2.25) scaled by 2 formats as
`      (xy 3.000000 -4.500000)`. -/
theorem claim4 :
    (∀ x y F : ℚ, format_points (scale_points [(x, y)] F) defaultIndent =
      defaultIndent ++ chars "(xy " ++ fmtFixed 6 (x * F) ++
        ' ' :: fmtFixed 6 (y * F) ++ [')']) ∧
    (∀ q : ℚ, ∃ a : List Char, fmtFixed 6 q = a ++ '.' ::
        fracChars 6 ((rhe (q * 10 ^ 6)).natAbs % 10 ^ 6) ∧
      (fracChars 6 ((rhe (q * 10 ^ 6)).natAbs % 10 ^ 6)).length = 6 ∧
      (∀ c ∈ fracChars 6 ((rhe (q * 10 ^ 6)).natAbs % 10 ^ 6), c.isDigit = true) ∧
      '.' ∉ a) ∧
    format_points (scale_points [((3 : ℚ)/2, -(9 : ℚ)/4)] 2) defaultIndent =
      chars "      (xy 3.000000 -4.500000)" := by
  refine ⟨fun x y F => rfl, ?_, by with_unfolding_all decide⟩
  intro q
  refine ⟨(if rhe (q * 10 ^ 6) < 0 then ['-'] else []) ++
      natChars ((rhe (q * 10 ^ 6)).natAbs / 10 ^ 6), ?_, ?_, ?_, ?_⟩
  · rw [fmtFixed, List.append_assoc]
  · exact length_fracChars _ _ (Nat.mod_lt _ (by positivity))
  · exact fracChars_digits _ _
  · intro hmem
    rcases List.mem_append.mp hmem with hc | hc
    · split at hc
      · simp only [List.mem_singleton] at hc
        exact absurd hc (by decide)
      · simp at hc
    · exact absurd (natChars_digits _ '.' hc) (by decide)

theorem claim4_witness :
    format_points (scale_points [((3 : ℚ)/2, -(9 : ℚ)/4)] 2) defaultIndent =
      defaultIndent ++ chars "(xy " ++ fmtFixed 6 ((3 : ℚ)/2 * 2) ++
        ' ' :: fmtFixed 6 (-(9 : ℚ)/4 * 2) ++ [')'] ∧
    (∃ a : List Char, fmtFixed 6 (1 : ℚ) = a ++ '.' ::
        fracChars 6 ((rhe ((1 : ℚ) * 10 ^ 6)).natAbs % 10 ^ 6) ∧
      (fracChars 6 ((rhe ((1 : ℚ) * 10 ^ 6)).natAbs % 10 ^ 6)).length = 6 ∧
      (∀ c ∈ fracChars 6 ((rhe ((1 : ℚ) * 10 ^ 6)).natAbs % 10 ^ 6), c.isDigit = true) ∧
      '.' ∉ a) :=
  ⟨claim4.1 ((3 : ℚ)/2) (-(9 : ℚ)/4) 2, claim4.2.1 1⟩

/-- C5: every size field `(size W H)` is replaced by
`(size W·F H·F)` and every thickness field `(thickness T)` by
`(thickness T·F)`, each value rendered with exactly three decimal
places; in particular `(size 1 1.5)` scaled by 3 becomes
`(size 3.000 4.500)`. -/
theorem claim5 :
    (∀ g1 g2 rest : List Char, ∀ f W H : ℚ,
      g1 ≠ [] → (∀ c ∈ g1, isSizeChar c = true) → pyFloat g1 = some W →
      g2 ≠ [] → (∀ c ∈ g2, isSizeChar c = true) → pyFloat g2 = some H →
      sizeSub (chars "(size " ++ g1 ++ ' ' :: g2 ++ ')' :: rest) f =
        (sizeSub rest f).map (fun t =>
          chars "(size " ++ fmtFixed 3 (W * f) ++ ' ' :: fmtFixed 3 (H * f) ++
            ')' :: t)) ∧
    (∀ g1 rest : List Char, ∀ f T : ℚ,
      g1 ≠ [] → (∀ c ∈ g1, isSizeChar c = true) → pyFloat g1 = some T →
      thicknessSub (chars "(thickness " ++ g1 ++ ')' :: rest) f =
        (thicknessSub rest f).map (fun t =>
          chars "(thickness " ++ fmtFixed 3 (T * f) ++ ')' :: t)) ∧
    scale_footprint (chars "(size 1 1.5)") 3 = some (chars "(size 3.000 4.500)") :=
  ⟨fun g1 g2 rest f W H h1 h1s hW h2 h2s hH =>
    sizeSub_field g1 g2 rest f W H h1 h1s hW h2 h2s hH,
   fun g1 rest f T h1 h1s hT => thicknessSub_field g1 rest f T h1 h1s hT,
   by with_unfolding_all decide⟩

theorem claim5_witness :
    sizeSub (chars "(size " ++ chars "1" ++ ' ' :: chars "1.5" ++ ')' :: []) 3 =
      (sizeSub [] 3).map (fun t =>
        chars "(size " ++ fmtFixed 3 ((1 : ℚ) * 3) ++
          ' ' :: fmtFixed 3 ((3 : ℚ)/2 * 3) ++ ')' :: t) :=
  claim5.1 (chars "1") (chars "1.5") [] 3 1 ((3 : ℚ)/2)
    (by decide) (by decide) (by with_unfolding_all decide)
    (by decide) (by decide) (by with_unfolding_all decide)

/-- C6: for every point list and positive factor, extracting the points
back out of the formatted scaled point list recovers the scaled
coordinate sequence with each component rounded to six decimal
places. -/
theorem claim6 (P : List (ℚ × ℚ)) (F : ℚ) (hF : 0 < F) :
    parse_points (format_points (scale_points P F) defaultIndent) =
      some ((scale_points P F).map (fun p => (roundTo 6 p.1, roundTo 6 p.2))) :=
  parse_format (scale_points P F)

theorem claim6_witness :
    parse_points (format_points (scale_points [((1 : ℚ), (2 : ℚ))] 2) defaultIndent) =
      some ((scale_points [((1 : ℚ), (2 : ℚ))] 2).map
        (fun p => (roundTo 6 p.1, roundTo 6 p.2))) :=
  claim6 [(1, 2)] 2 (by decide)

/-- C7: scaling preserves the length and the order of the coordinate
sequence: the i-th output coordinate is the scaled i-th input
coordinate; [(0,0),(1,0),(1,1)] scaled by 2 is [(0,0),(2,0),(2,2)] in
that exact order. -/
theorem claim7 :
    (∀ P : List (ℚ × ℚ), ∀ f : ℚ, (scale_points P f).length = P.length) ∧
    (∀ P : List (ℚ × ℚ), ∀ f : ℚ, ∀ i : ℕ,
      (scale_points P f)[i]? = (P[i]?).map (fun p => (p.1 * f, p.2 * f))) ∧
    scale_points [((0 : ℚ), (0 : ℚ)), (1, 0), (1, 1)] 2 = [(0, 0), (2, 0), (2, 2)] := by
  refine ⟨fun P f => by simp [scale_points], fun P f i => ?_,
    by with_unfolding_all decide⟩
  simp [scale_points]

/-- C8: the size and thickness substitutions never match any text the
polygon rewrite emits: on a replacement block (formatted points followed
by the canonical closing/stroke text) both passes find no match and
return it unchanged, so no value is scaled twice. -/
theorem claim8 (ps : List (ℚ × ℚ)) (g : ℚ) :
    sizeSub (format_points ps defaultIndent ++ chars "\n    ) (stroke") g =
      some (format_points ps defaultIndent ++ chars "\n    ) (stroke") ∧
    thicknessSub (format_points ps defaultIndent ++ chars "\n    ) (stroke") g =
      some (format_points ps defaultIndent ++ chars "\n    ) (stroke") ∧
    hasMatch (sizeStep g)
      (format_points ps defaultIndent ++ chars "\n    ) (stroke") = false ∧
    hasMatch (thicknessStep g)
      (format_points ps defaultIndent ++ chars "\n    ) (stroke") = false :=
  ⟨emitted_fixed_sizeSub ps g, emitted_fixed_thicknessSub ps g,
   hasMatch_false_of_clean _ _ (clean_emitted _ (fun u => sizeStep_none_xy g u)
     (fun u => sizeStep_none_stroke g ('r' :: 'o' :: 'k' :: 'e' :: u))
     (fun c cs h => sizeStep_none_of_ne g c cs h) ps),
   hasMatch_false_of_clean _ _ (clean_emitted _ (fun u => thicknessStep_none_xy g u)
     (fun u => thicknessStep_none_stroke g ('t' :: 'r' :: 'o' :: 'k' :: 'e' :: u))
     (fun c cs h => thicknessStep_none_of_ne g c cs h) ps)⟩

/-- C9 (counterexample): Python `float("nan")` succeeds, `nan < 0` is
`False`, so the prompt loop returns `nan`; `nan == 0` is also `False`,
so `process_footprint` invokes the transform with `nan` — which is not
strictly greater than 0 (and is not treated as the exit sentinel). -/
theorem claim9_counterexample :
    get_scale_factor [chars "nan"] = some FloatVal.nan ∧
    process_footprint (chars "x") [chars "nan"] =
      some (true, some (FloatVal.nan, none)) ∧
    pyGtZero FloatVal.nan = false :=
  ⟨by with_unfolding_all decide, by with_unfolding_all decide, rfl⟩

/-- C9 (amended): the batch prompt loop re-prompts on non-numeric input
and on negative factors, never returns a factor with `f < 0`, and a
factor equal to 0 makes `process_footprint` return `False` without
invoking the transform; consequently every factor passed to the
transform satisfies neither `f < 0` nor `f == 0` — strictly positive
whenever it is an ordinary finite number — but `float("nan")` passes
both guards, so the transform can be invoked with `nan`, which is not
strictly greater than 0. -/
theorem claim9_amended :
    (∀ inputs : List (List Char), ∀ f : FloatVal,
      get_scale_factor inputs = some f → pyLtZero f = false) ∧
    (∀ i : List Char, ∀ rest : List (List Char), ∀ f : FloatVal,
      floatInput i = some f → pyLtZero f = true →
      get_scale_factor (i :: rest) = get_scale_factor rest) ∧
    (∀ i : List Char, ∀ rest : List (List Char), floatInput i = none →
      get_scale_factor (i :: rest) = get_scale_factor rest) ∧
    (∀ content : List Char, ∀ inputs : List (List Char), ∀ f : FloatVal,
      get_scale_factor inputs = some f → pyEqZero f = true →
      process_footprint content inputs = some (false, none)) ∧
    (∀ content : List Char, ∀ inputs : List (List Char),
      ∀ b : Bool, ∀ r : Option (FloatVal × Option (List Char)),
      process_footprint content inputs = some (b, r) →
      ∀ f : FloatVal, ∀ o : Option (List Char), r = some (f, o) →
      pyLtZero f = false ∧ pyEqZero f = false ∧
      (∀ q : ℚ, f = FloatVal.num q → 0 < q ∧ o = scale_footprint content q)) := by
  have hnotlt : ∀ inputs : List (List Char), ∀ f : FloatVal,
      get_scale_factor inputs = some f → pyLtZero f = false := by
    intro inputs
    induction inputs with
    | nil => intro f h; simp [get_scale_factor] at h
    | cons i rest ih =>
      intro f h
      cases hp : floatInput i with
      | none =>
        simp only [get_scale_factor, hp] at h
        exact ih f h
      | some f0 =>
        simp only [get_scale_factor, hp] at h
        split at h
        · exact ih f h
        · rename_i hneg
          simp only [Option.some.injEq] at h
          subst h
          simpa using hneg
  refine ⟨hnotlt, ?_, ?_, ?_, ?_⟩
  · intro i rest f hp hneg
    simp only [get_scale_factor, hp, if_pos hneg]
  · intro i rest hp
    simp only [get_scale_factor, hp]
  · intro content inputs f hg hz
    simp [process_footprint, hg, hz]
  · intro content inputs b r h f o hr
    cases hg : get_scale_factor inputs with
    | none => simp only [process_footprint, hg] at h; exact absurd h (by simp)
    | some f0 =>
      cases f0 with
      | num q =>
        simp only [process_footprint, hg] at h
        split at h
        · simp only [Option.some.injEq, Prod.mk.injEq] at h
          obtain ⟨-, rfl⟩ := h
          exact absurd hr (by simp)
        · rename_i hz0
          have hz0f : pyEqZero (FloatVal.num q) = false := by
            cases hz : pyEqZero (FloatVal.num q)
            · rfl
            · exact absurd hz hz0
          cases hs : scale_footprint content q with
          | none => rw [hs] at h; exact absurd h (by simp)
          | some out0 =>
            rw [hs] at h
            simp only [Option.some.injEq, Prod.mk.injEq] at h
            obtain ⟨-, rfl⟩ := h
            simp only [Option.some.injEq, Prod.mk.injEq] at hr
            obtain ⟨rfl, rfl⟩ := hr
            refine ⟨hnotlt inputs _ hg, hz0f, ?_⟩
            intro q2 hq2
            simp only [FloatVal.num.injEq] at hq2
            subst hq2
            have hq0 : ¬(q < 0) := by
              have hlt := hnotlt inputs _ hg
              simpa [pyLtZero] using hlt
            have hqz : ¬(q = 0) := by
              simpa [pyEqZero] using hz0f
            exact ⟨lt_of_le_of_ne (le_of_not_lt hq0) (Ne.symm hqz), hs.symm⟩
      | nan =>
        simp only [process_footprint, hg] at h
        split at h
        · rename_i hz
          exact absurd hz (by decide)
        · simp only [Option.some.injEq, Prod.mk.injEq] at h
          obtain ⟨-, rfl⟩ := h
          simp only [Option.some.injEq, Prod.mk.injEq] at hr
          obtain ⟨rfl, rfl⟩ := hr
          exact ⟨rfl, rfl, fun q hq => by simp at hq⟩
      | inf =>
        simp only [process_footprint, hg] at h
        split at h
        · rename_i hz
          exact absurd hz (by decide)
        · simp only [Option.some.injEq, Prod.mk.injEq] at h
          obtain ⟨-, rfl⟩ := h
          simp only [Option.some.injEq, Prod.mk.injEq] at hr
          obtain ⟨rfl, rfl⟩ := hr
          exact ⟨rfl, rfl, fun q hq => by simp at hq⟩
      | ninf =>
        have hlt := hnotlt inputs FloatVal.ninf hg
        exact absurd hlt (by decide)

set_option maxRecDepth 16384 in
theorem claim9_witness :
    process_footprint (chars "x") [chars "0"] = some (false, none) ∧
    (pyLtZero (FloatVal.num 2) = false ∧ pyEqZero (FloatVal.num 2) = false ∧
      (∀ q : ℚ, FloatVal.num 2 = FloatVal.num q →
        0 < q ∧ some (chars "x") = scale_footprint (chars "x") q)) :=
  ⟨claim9_amended.2.2.2.1 (chars "x") [chars "0"] (FloatVal.num 0)
     (by with_unfolding_all decide) rfl,
   claim9_amended.2.2.2.2 (chars "x") [chars "2"] true
     (some (FloatVal.num 2, some (chars "x")))
     (by with_unfolding_all decide) (FloatVal.num 2) (some (chars "x")) rfl⟩

/-- C10 (counterexample): an `fp_poly` block indented by four spaces is
not in the claimed "exactly two spaces" shape, yet `scale_footprint`
rewrites it and scales its coordinates — the pattern requires only that
two spaces immediately precede `(fp_poly`. -/
theorem claim10_counterexample :
    scale_footprint (chars "    (fp_poly (pts\n      (xy 1 1)\n    ) (stroke") 2 =
      some (chars "    (fp_poly (pts\n      (xy 2.000000 2.000000)\n    ) (stroke") ∧
    chars "    (fp_poly (pts\n      (xy 2.000000 2.000000)\n    ) (stroke" ≠
      chars "    (fp_poly (pts\n      (xy 1 1)\n    ) (stroke" :=
  ⟨by with_unfolding_all decide, by with_unfolding_all decide⟩

/-- C10 (amended): the polygon rewrite only touches text where the full
pattern matches — `(fp_poly` immediately preceded by at least two
spaces, whitespace, `(pts`, optional whitespace and a newline, and a
later closing parenthesis followed (up to whitespace) by `(stroke`.  A
document in which the pattern matches nowhere is left byte for byte
unchanged; a one-space indent, a `(pts` with no following newline, or a
missing `(stroke` all fail to match, while a four-space indent still
matches. -/
theorem claim10_amended :
    (∀ d : List Char, ∀ f : ℚ, hasMatch (polyStep f) d = false →
      polySub d f = some d) ∧
    scale_footprint (chars "    (fp_poly (pts\n      (xy 1 1)\n    ) (stroke") 2 =
      some (chars "    (fp_poly (pts\n      (xy 2.000000 2.000000)\n    ) (stroke") ∧
    scale_footprint (chars " (fp_poly (pts\n(xy 1 1)) (stroke") 2 =
      some (chars " (fp_poly (pts\n(xy 1 1)) (stroke") ∧
    scale_footprint (chars "  (fp_poly (pts (xy 1 1)) (stroke") 2 =
      some (chars "  (fp_poly (pts (xy 1 1)) (stroke") ∧
    scale_footprint (chars "  (fp_poly (pts\n(xy 1 1))") 2 =
      some (chars "  (fp_poly (pts\n(xy 1 1))") :=
  ⟨fun d f h => applySub_of_no_match _ _ h,
   by with_unfolding_all decide, by with_unfolding_all decide,
   by with_unfolding_all decide, by with_unfolding_all decide⟩

theorem claim10_witness :
    polySub (chars "no polygon here") 3 = some (chars "no polygon here") :=
  claim10_amended.1 (chars "no polygon here") 3 (by with_unfolding_all decide)

end KFS
